import Mathlib

/-!
Verification of the Sudoku solver library (`src/lib.rs`).

The Rust board type is `type Sudoku = [[Option<NonZeroU8>; 9]; 9]`.
We model a board as a total function `Nat → Nat → Option Nat`; the solver
and checker only ever access indices in `[0,8]`, so behaviour outside that
range is irrelevant (and all theorems quantify over in-range indices).
The `bool` bitset arrays `[[bool; 9]; 9]` are modelled as `Nat → Nat → Bool`.
Rust panics (the `panic!("Invalid initial board!")` in `solve_puzzle`) are
modelled by an `Option` result, `none` meaning the panic.
-/

namespace Sudoku

/-- A 9x9 Sudoku board: cell `(r, c)` is `none` (unfilled) or `some d`. -/
def Board : Type := Nat → Nat → Option Nat

/-- A 9x9 array of booleans, as used for `row_vals`, `col_vals`, `grid_vals`. -/
def Bits : Type := Nat → Nat → Bool

/-- Write value `v` into cell `(r, c)` of the board (models `board[r][c] = v`). -/
def setCell (b : Board) (r c : Nat) (v : Option Nat) : Board :=
  fun r' c' => if r' = r then (if c' = c then v else b r' c') else b r' c'

/-- Write `v` at position `(x, i)` of a bitset array (models `vals[x][i] = v`). -/
def setBit (m : Bits) (x i : Nat) (v : Bool) : Bits :=
  fun x' i' => if x' = x then (if i' = i then v else m x' i') else m x' i'

/-- The all-false bitset array (models `[[false; 9]; 9]`). -/
def falseBits : Bits := fun _ _ => false

/-- The static `GRID_NUMS` lookup table from `grid_num` in the source. -/
def GRID_NUMS : List (List Nat) :=
  [[0, 0, 0, 1, 1, 1, 2, 2, 2],
   [0, 0, 0, 1, 1, 1, 2, 2, 2],
   [0, 0, 0, 1, 1, 1, 2, 2, 2],
   [3, 3, 3, 4, 4, 4, 5, 5, 5],
   [3, 3, 3, 4, 4, 4, 5, 5, 5],
   [3, 3, 3, 4, 4, 4, 5, 5, 5],
   [6, 6, 6, 7, 7, 7, 8, 8, 8],
   [6, 6, 6, 7, 7, 7, 8, 8, 8],
   [6, 6, 6, 7, 7, 7, 8, 8, 8]]

/-- `grid_num(r, c)`: subgrid index of cell `(r, c)`, via the lookup table. -/
def grid_num (r c : Nat) : Nat :=
  ((GRID_NUMS.getD r []).getD c 0)

/-- `NonZeroU8::new`: `none` on zero, `some x` otherwise. -/
def nonZeroU8New (x : Nat) : Option Nat :=
  if x = 0 then none else some x

/-- The 81 cell coordinates in row-major order, as scanned by the loops
`for r in 0..=8 { for c in 0..=8 { ... } }`. -/
def cellList : List (Nat × Nat) :=
  (List.range 9).flatMap (fun r => (List.range 9).map (fun c => (r, c)))

/-- The candidate indices `0..=8` tried by the digit loop (`for i in 0usize..=8`). -/
def digitList : List Nat := List.range 9

/-- The initialization scan of `solve_puzzle` (lines 20-36): fold over the
remaining cells, setting the three bitsets for each clue and returning
`none` (the `panic!`) if a bit is already set. -/
def initFrom (b : Board) : List (Nat × Nat) → Bits → Bits → Bits →
    Option (Bits × Bits × Bits)
  | [], rv, cv, gv => some (rv, cv, gv)
  | (r, c) :: rest, rv, cv, gv =>
    match b r c with
    | some d =>
      let g := grid_num r c
      let i := d - 1
      if rv r i || cv c i || gv g i then none
      else initFrom b rest (setBit rv r i true) (setBit cv c i true)
        (setBit gv g i true)
    | none => initFrom b rest rv cv gv

/-- The full initialization scan over all 81 cells, starting from all-false
bitsets (models lines 16-36 of `solve_puzzle`). -/
def initScan (b : Board) : Option (Bits × Bits × Bits) :=
  initFrom b cellList falseBits falseBits falseBits

/-- The mutable state of `solve_sudoku_from`: board plus the three bitsets. -/
@[ext]
structure SolverState where
  board : Board
  rowVals : Bits
  colVals : Bits
  gridVals : Bits

/-- Tentatively place digit `i+1` at cell `(r, c)` (lines 82-85): write the
cell and set the three bits. -/
def place (s : SolverState) (r c g i : Nat) : SolverState :=
  { board := setCell s.board r c (nonZeroU8New (i + 1)),
    rowVals := setBit s.rowVals r i true,
    colVals := setBit s.colVals c i true,
    gridVals := setBit s.gridVals g i true }

/-- Undo a placement at cell `(r, c)` (lines 97-100): clear the cell and the
three bits. -/
def unplace (s : SolverState) (r c g i : Nat) : SolverState :=
  { board := setCell s.board r c none,
    rowVals := setBit s.rowVals r i false,
    colVals := setBit s.colVals c i false,
    gridVals := setBit s.gridVals g i false }

/-- The candidate-digit loop of `solve_sudoku_from` (lines 78-101).
`next` is the recursion into the next grid position (which at the last cell
is `return true`, keeping the placement). A set bit skips the digit
(`continue`); otherwise the digit is placed, `next` is run, success is
propagated immediately, and failure undoes the placement (on whatever state
`next` left behind, exactly as the mutable Rust code does). -/
def tryDigits (next : SolverState → Bool × SolverState) (r c g : Nat) :
    List Nat → SolverState → Bool × SolverState
  | [], s => (false, s)
  | i :: rest, s =>
    if s.rowVals r i || s.colVals c i || s.gridVals g i then
      tryDigits next r c g rest s
    else
      let res := next (place s r c g i)
      if res.1 then res
      else tryDigits next r c g rest (unplace res.2 r c g i)

/-- `solve_sudoku_from` (lines 65-105), with an explicit fuel parameter
bounding the recursion depth (fuel `81` suffices from `(0,0)`; see the
fuel-irrelevance theorem). A filled cell advances to the next position in
row-major order, returning `true` past the last cell; an empty cell runs
the candidate-digit loop, whose continuation is the same position advance. -/
def solveFrom : Nat → Nat → Nat → SolverState → Bool × SolverState
  | 0, _, _, s => (false, s)
  | fuel + 1, r, c, s =>
    match s.board r c with
    | some _ =>
      if c + 1 < 9 then solveFrom fuel r (c + 1) s
      else if r + 1 < 9 then solveFrom fuel (r + 1) 0 s
      else (true, s)
    | none =>
      tryDigits
        (fun s' =>
          if c + 1 < 9 then solveFrom fuel r (c + 1) s'
          else if r + 1 < 9 then solveFrom fuel (r + 1) 0 s'
          else (true, s'))
        r c (grid_num r c) digitList s

/-- `solve_puzzle` (lines 15-40): build the bitsets from the clues (panic,
modelled as `none`, on a duplicate), then run the search from `(0, 0)`.
The result records the boolean returned by `solve_sudoku_from` (which the
Rust code computes and discards) together with the final board. -/
def solve_puzzle (b : Board) : Option (Bool × Board) :=
  match initScan b with
  | none => none
  | some (rv, cv, gv) =>
    let res := solveFrom 81 0 0 ⟨b, rv, cv, gv⟩
    some (res.1, res.2.board)

/-- One `seen`-array used by a phase of `check_puzzle`
(`row_vals` / `col_vals` / `grid_vals`, each `[false; 9]`). -/
def setSeen (f : Nat → Bool) (i : Nat) : Nat → Bool :=
  fun j => if j = i then true else f j

/-- One phase pass of `check_puzzle` over a list of cells: `false` on an
empty cell or on a value whose `val - 1` flag is already set, otherwise
set the flag and continue. -/
def checkCells (b : Board) : List (Nat × Nat) → (Nat → Bool) → Bool
  | [], _ => true
  | (r, c) :: rest, seen =>
    match b r c with
    | none => false
    | some val => if seen (val - 1) then false
      else checkCells b rest (setSeen seen (val - 1))

/-- The cells of row `r` in the order scanned by the row phase. -/
def rowCells (r : Nat) : List (Nat × Nat) :=
  (List.range 9).map (fun c => (r, c))

/-- The cells of column `c` in the order scanned by the column phase. -/
def colCells (c : Nat) : List (Nat × Nat) :=
  (List.range 9).map (fun r => (r, c))

/-- The cells of the 3x3 box with top-left corner `(i, j)`, in the order
scanned by the nested `while` loops of the box phase. -/
def boxCells (i j : Nat) : List (Nat × Nat) :=
  (List.range 3).flatMap (fun dr => (List.range 3).map (fun dc => (i + dr, j + dc)))

/-- `check_puzzle` (lines 158-219): row phase, column phase, box phase;
each early `return false` is the short-circuit of `&&` / `List.all`. -/
def check_puzzle (b : Board) : Bool :=
  ((List.range 9).all fun r => checkCells b (rowCells r) (fun _ => false)) &&
  ((List.range 9).all fun c => checkCells b (colCells c) (fun _ => false)) &&
  (([0, 3, 6] : List Nat).all fun i => ([0, 3, 6] : List Nat).all fun j =>
    checkCells b (boxCells i j) (fun _ => false))

/-! ### Basic lemmas about cell and bit updates -/

@[simp]
theorem setCell_self (b : Board) (r c : Nat) (v : Option Nat) :
    setCell b r c v r c = v := by
  simp [setCell]

theorem setCell_other (b : Board) (r c : Nat) (v : Option Nat) {r' c' : Nat}
    (h : ¬(r' = r ∧ c' = c)) : setCell b r c v r' c' = b r' c' := by
  unfold setCell
  by_cases hr : r' = r
  · have hc : ¬ c' = c := fun hc => h ⟨hr, hc⟩
    simp [hr, hc]
  · simp [hr]

theorem setCell_setCell (b : Board) (r c : Nat) (v w : Option Nat) :
    setCell (setCell b r c v) r c w = setCell b r c w := by
  funext r' c'
  by_cases h : r' = r ∧ c' = c
  · obtain ⟨hr, hc⟩ := h
    subst hr; subst hc
    simp
  · rw [setCell_other _ _ _ _ h, setCell_other _ _ _ _ h, setCell_other _ _ _ _ h]

theorem setCell_id (b : Board) (r c : Nat) {v : Option Nat} (h : b r c = v) :
    setCell b r c v = b := by
  funext r' c'
  by_cases hrc : r' = r ∧ c' = c
  · obtain ⟨hr, hc⟩ := hrc
    subst hr; subst hc
    simp [h]
  · exact setCell_other _ _ _ _ hrc

@[simp]
theorem setBit_self (m : Bits) (x i : Nat) (v : Bool) :
    setBit m x i v x i = v := by
  simp [setBit]

theorem setBit_other (m : Bits) (x i : Nat) (v : Bool) {x' i' : Nat}
    (h : ¬(x' = x ∧ i' = i)) : setBit m x i v x' i' = m x' i' := by
  unfold setBit
  by_cases hx : x' = x
  · have hi : ¬ i' = i := fun hi => h ⟨hx, hi⟩
    simp [hx, hi]
  · simp [hx]

theorem setBit_setBit (m : Bits) (x i : Nat) (v w : Bool) :
    setBit (setBit m x i v) x i w = setBit m x i w := by
  funext x' i'
  by_cases h : x' = x ∧ i' = i
  · obtain ⟨hx, hi⟩ := h
    subst hx; subst hi
    simp
  · rw [setBit_other _ _ _ _ h, setBit_other _ _ _ _ h, setBit_other _ _ _ _ h]

theorem setBit_id (m : Bits) (x i : Nat) {v : Bool} (h : m x i = v) :
    setBit m x i v = m := by
  funext x' i'
  by_cases hxi : x' = x ∧ i' = i
  · obtain ⟨hx, hi⟩ := hxi
    subst hx; subst hi
    simp [h]
  · exact setBit_other _ _ _ _ hxi

@[simp]
theorem nonZeroU8New_succ (i : Nat) : nonZeroU8New (i + 1) = some (i + 1) := by
  simp [nonZeroU8New]

/-- Undoing a placement on a cell that was empty, with all three guard bits
clear, restores the state exactly. -/
theorem unplace_place (s : SolverState) (r c g i : Nat)
    (hb : s.board r c = none)
    (hg : (s.rowVals r i || s.colVals c i || s.gridVals g i) = false) :
    unplace (place s r c g i) r c g i = s := by
  have h3 : (s.rowVals r i = false ∧ s.colVals c i = false) ∧ s.gridVals g i = false := by
    simpa [Bool.or_eq_false_iff] using hg
  ext
  · show setCell (setCell s.board r c (nonZeroU8New (i + 1))) r c none = s.board
    rw [setCell_setCell, setCell_id s.board r c hb]
  · show setBit (setBit s.rowVals r i true) r i false = s.rowVals
    rw [setBit_setBit, setBit_id s.rowVals r i h3.1.1]
  · show setBit (setBit s.colVals c i true) c i false = s.colVals
    rw [setBit_setBit, setBit_id s.colVals c i h3.1.2]
  · show setBit (setBit s.gridVals g i true) g i false = s.gridVals
    rw [setBit_setBit, setBit_id s.gridVals g i h3.2]

/-! ### Restoration on failure -/

/-- If the continuation restores state on failure, so does the digit loop:
a `false` result hands back exactly the state it was given. -/
theorem tryDigits_restore (next : SolverState → Bool × SolverState)
    (Hnext : ∀ s t, next s = (false, t) → t = s) (r c g : Nat) :
    ∀ (L : List Nat) (s s' : SolverState), s.board r c = none →
      tryDigits next r c g L s = (false, s') → s' = s := by
  intro L
  induction L with
  | nil =>
    intro s s' _ h
    have := congrArg Prod.snd h
    exact this.symm
  | cons i rest ih =>
    intro s s' hb h
    unfold tryDigits at h
    by_cases hg : (s.rowVals r i || s.colVals c i || s.gridVals g i) = true
    · rw [if_pos hg] at h
      exact ih s s' hb h
    · have hg' : (s.rowVals r i || s.colVals c i || s.gridVals g i) = false :=
        Bool.eq_false_iff.mpr hg
      rw [if_neg hg] at h
      rcases hres : next (place s r c g i) with ⟨b1, t⟩
      rw [hres] at h
      cases b1 with
      | true => simp at h
      | false =>
        simp only [if_neg Bool.false_ne_true] at h
        have ht : t = place s r c g i := Hnext _ _ hres
        rw [ht, unplace_place s r c g i hb hg'] at h
        exact ih s s' hb h

/-- Restoration: whenever `solve_sudoku_from` returns `false`, the state
(board and all three bitsets) is exactly the state it was handed. -/
theorem solveFrom_restore :
    ∀ (fuel r c : Nat) (s s' : SolverState),
      solveFrom fuel r c s = (false, s') → s' = s := by
  intro fuel
  induction fuel with
  | zero =>
    intro r c s s' h
    exact (congrArg Prod.snd h).symm
  | succ n ih =>
    intro r c s s' h
    cases hb : s.board r c with
    | some d =>
      simp only [solveFrom, hb] at h
      by_cases hc : c + 1 < 9
      · rw [if_pos hc] at h
        exact ih _ _ _ _ h
      · rw [if_neg hc] at h
        by_cases hr : r + 1 < 9
        · rw [if_pos hr] at h
          exact ih _ _ _ _ h
        · rw [if_neg hr] at h
          simp at h
    | none =>
      simp only [solveFrom, hb] at h
      refine tryDigits_restore _ ?_ r c (grid_num r c) digitList s s' hb h
      intro s0 t0 h0
      by_cases hc : c + 1 < 9
      · rw [if_pos hc] at h0
        exact ih _ _ _ _ h0
      · rw [if_neg hc] at h0
        by_cases hr : r + 1 < 9
        · rw [if_pos hr] at h0
          exact ih _ _ _ _ h0
        · rw [if_neg hr] at h0
          simp at h0

/-! ### Fuel irrelevance (termination of the search) -/

/-- The digit loop only looks at its continuation pointwise. -/
theorem tryDigits_congr (next₁ next₂ : SolverState → Bool × SolverState)
    (h : ∀ s, next₁ s = next₂ s) (r c g : Nat) :
    ∀ (L : List Nat) (s : SolverState),
      tryDigits next₁ r c g L s = tryDigits next₂ r c g L s := by
  intro L
  induction L with
  | nil => intro s; rfl
  | cons i rest ih =>
    intro s
    unfold tryDigits
    by_cases hg : (s.rowVals r i || s.colVals c i || s.gridVals g i) = true
    · rw [if_pos hg, if_pos hg]
      exact ih s
    · rw [if_neg hg, if_neg hg, h (place s r c g i)]
      rcases next₂ (place s r c g i) with ⟨b1, t⟩
      cases b1 with
      | true => rfl
      | false => simpa using ih (unplace t r c g i)

/-- Any two fuel values at least `81 - (9*r + c)` give the same result of
the search from position `(r, c)`: the recursion advances the row-major
position at every step, so that much fuel always suffices. -/
theorem solveFrom_fuel_congr :
    ∀ (f₁ f₂ r c : Nat) (s : SolverState), r < 9 → c < 9 →
      81 - (9 * r + c) ≤ f₁ → 81 - (9 * r + c) ≤ f₂ →
      solveFrom f₁ r c s = solveFrom f₂ r c s := by
  intro f₁
  induction f₁ with
  | zero =>
    intro f₂ r c s hr hc h₁ h₂
    omega
  | succ n ih =>
    intro f₂ r c s hr hc h₁ h₂
    cases f₂ with
    | zero => omega
    | succ m =>
      cases hb : s.board r c with
      | some d =>
        simp only [solveFrom, hb]
        by_cases hc1 : c + 1 < 9
        · rw [if_pos hc1, if_pos hc1]
          exact ih m r (c + 1) s hr hc1 (by omega) (by omega)
        · rw [if_neg hc1, if_neg hc1]
          by_cases hr1 : r + 1 < 9
          · rw [if_pos hr1, if_pos hr1]
            exact ih m (r + 1) 0 s hr1 (by omega) (by omega) (by omega)
          · rw [if_neg hr1, if_neg hr1]
      | none =>
        simp only [solveFrom, hb]
        refine tryDigits_congr _ _ ?_ r c (grid_num r c) digitList s
        intro s0
        by_cases hc1 : c + 1 < 9
        · rw [if_pos hc1, if_pos hc1]
          exact ih m r (c + 1) s0 hr hc1 (by omega) (by omega)
        · rw [if_neg hc1, if_neg hc1]
          by_cases hr1 : r + 1 < 9
          · rw [if_pos hr1, if_pos hr1]
            exact ih m (r + 1) 0 s0 hr1 (by omega) (by omega) (by omega)
          · rw [if_neg hr1, if_neg hr1]

/-! ### Declarative predicates on boards

All quantifiers are bounded by `9` (the board has exactly 81 cells), and all
shapes are decidable so that concrete instances can be checked by `decide`. -/

/-- A cell is empty or holds a digit `1`-`9` (in Rust this is almost, but not
quite, enforced by `Option<NonZeroU8>`, which also admits `10`-`255`). -/
def cellOK (o : Option Nat) : Bool :=
  match o with
  | none => true
  | some d => decide (1 ≤ d ∧ d ≤ 9)

/-- Well-formed board: every cell is empty or holds a digit `1`-`9`. -/
def WellFormedB (b : Board) : Prop :=
  ∀ r, r < 9 → ∀ c, c < 9 → cellOK (b r c) = true

/-- Fully-filled board: no cell is `none`. -/
def FilledB (b : Board) : Prop :=
  ∀ r, r < 9 → ∀ c, c < 9 → (b r c).isSome = true

/-- No two distinct cells sharing a row, a column, or a subgrid hold the
same digit. -/
def NoConflictB (b : Board) : Prop :=
  ∀ r, r < 9 → ∀ c, c < 9 → ∀ r2, r2 < 9 → ∀ c2, c2 < 9 →
    ¬(r = r2 ∧ c = c2) → (r = r2 ∨ c = c2 ∨ grid_num r c = grid_num r2 c2) →
    (b r c).isSome = true → b r c ≠ b r2 c2

/-- Two equal digits already share a row, a column, or a subgrid. -/
def HasDup (b : Board) : Prop :=
  ∃ r, r < 9 ∧ ∃ c, c < 9 ∧ ∃ r2, r2 < 9 ∧ ∃ c2, c2 < 9 ∧
    ¬(r = r2 ∧ c = c2) ∧ (r = r2 ∨ c = c2 ∨ grid_num r c = grid_num r2 c2) ∧
    (b r c).isSome = true ∧ b r c = b r2 c2

/-- `b'` agrees with `b` on every filled cell of `b`. -/
def BoardExtends (b b' : Board) : Prop :=
  ∀ r, r < 9 → ∀ c, c < 9 → (b r c).isSome = true → b' r c = b r c

/-- `bs` is a valid completion of `b`: fully filled with digits `1`-`9`, no
row/column/subgrid conflict, and agreeing with every clue of `b`. -/
def SolvesB (b bs : Board) : Prop :=
  FilledB bs ∧ NoConflictB bs ∧ WellFormedB bs ∧ BoardExtends b bs

/-- The three bitset arrays are exactly the digit occupancy derived from the
board (the invariant of §3 of the spec). -/
def BitsOcc (s : SolverState) : Prop :=
  (∀ r, r < 9 → ∀ i, i < 9 →
    (s.rowVals r i = true ↔ ∃ c, c < 9 ∧ s.board r c = some (i + 1))) ∧
  (∀ c, c < 9 → ∀ i, i < 9 →
    (s.colVals c i = true ↔ ∃ r, r < 9 ∧ s.board r c = some (i + 1))) ∧
  (∀ g, g < 9 → ∀ i, i < 9 →
    (s.gridVals g i = true ↔
      ∃ r, r < 9 ∧ ∃ c, c < 9 ∧ grid_num r c = g ∧ s.board r c = some (i + 1)))

/-- The combined invariant carried through the search. -/
def StateInv (s : SolverState) : Prop :=
  BitsOcc s ∧ NoConflictB s.board ∧ WellFormedB s.board

theorem wellFormedB_digit {b : Board} (h : WellFormedB b) {r c d : Nat}
    (hr : r < 9) (hc : c < 9) (hd : b r c = some d) : 1 ≤ d ∧ d ≤ 9 := by
  have := h r hr c hc
  rw [hd] at this
  simpa [cellOK] using this

theorem noConflictB_ne {b : Board} (h : NoConflictB b) {r c r2 c2 d : Nat}
    (hr : r < 9) (hc : c < 9) (hr2 : r2 < 9) (hc2 : c2 < 9)
    (hne : ¬(r = r2 ∧ c = c2))
    (hu : r = r2 ∨ c = c2 ∨ grid_num r c = grid_num r2 c2)
    (h1 : b r c = some d) : b r2 c2 ≠ some d := by
  intro h2
  exact h r hr c hc r2 hr2 c2 hc2 hne hu (by simp [h1]) (h1.trans h2.symm)

theorem boardExtends_some {b b' : Board} (h : BoardExtends b b') {r c d : Nat}
    (hr : r < 9) (hc : c < 9) (hd : b r c = some d) : b' r c = some d := by
  rw [h r hr c hc (by simp [hd])]
  exact hd

/-! ### Decidability of the board predicates -/

instance (b : Board) : Decidable (WellFormedB b) := by
  unfold WellFormedB
  infer_instance

instance (b : Board) : Decidable (FilledB b) := by
  unfold FilledB
  infer_instance

theorem cellList_mem_of : ∀ r, r < 9 → ∀ c, c < 9 → (r, c) ∈ cellList := by
  decide

theorem cellList_bounds : ∀ p ∈ cellList, p.1 < 9 ∧ p.2 < 9 := by
  decide

/-- Executable check equivalent to `NoConflictB`. -/
def noConflictCheck (b : Board) : Bool :=
  cellList.all fun p => cellList.all fun q =>
    if p = q then true
    else if p.1 = q.1 ∨ p.2 = q.2 ∨ grid_num p.1 p.2 = grid_num q.1 q.2 then
      match b p.1 p.2 with
      | none => true
      | some v => decide (b q.1 q.2 ≠ some v)
    else true

theorem noConflictCheck_iff (b : Board) :
    noConflictCheck b = true ↔ NoConflictB b := by
  unfold noConflictCheck
  simp only [List.all_eq_true]
  constructor
  · intro h r hr c hc r2 hr2 c2 hc2 hne hunit hsome heq
    have hm1 := cellList_mem_of r hr c hc
    have hm2 := cellList_mem_of r2 hr2 c2 hc2
    have h2 := h (r, c) hm1 (r2, c2) hm2
    have hpq : ¬((r, c) : Nat × Nat) = (r2, c2) := by
      intro he
      exact hne ⟨congrArg Prod.fst he, congrArg Prod.snd he⟩
    rw [if_neg hpq, if_pos hunit] at h2
    obtain ⟨v, hv⟩ := Option.isSome_iff_exists.mp hsome
    rw [hv] at h2
    have := of_decide_eq_true h2
    apply this
    rw [← heq, hv]
  · intro h p hp q hq
    obtain ⟨h1, h2⟩ := cellList_bounds p hp
    obtain ⟨h3, h4⟩ := cellList_bounds q hq
    by_cases hpq : p = q
    · rw [if_pos hpq]
    · rw [if_neg hpq]
      by_cases hunit : p.1 = q.1 ∨ p.2 = q.2 ∨ grid_num p.1 p.2 = grid_num q.1 q.2
      · rw [if_pos hunit]
        cases hv : b p.1 p.2 with
        | none => rfl
        | some v =>
          refine decide_eq_true ?_
          intro hcon
          refine h p.1 h1 p.2 h2 q.1 h3 q.2 h4 ?_ hunit (by rw [hv]; rfl) ?_
          · rintro ⟨e1, e2⟩
            exact hpq (Prod.ext e1 e2)
          · rw [hv, hcon]
      · rw [if_neg hunit]

instance (b : Board) : Decidable (NoConflictB b) :=
  decidable_of_iff _ (noConflictCheck_iff b)

theorem not_noConflict_iff_hasDup (b : Board) : ¬ NoConflictB b ↔ HasDup b := by
  constructor
  · intro h
    unfold NoConflictB at h
    push_neg at h
    obtain ⟨r, hr, c, hc, r2, hr2, c2, hc2, hne, hunit, hsome, heq⟩ := h
    exact ⟨r, hr, c, hc, r2, hr2, c2, hc2, fun hand => hne hand.1 hand.2,
      hunit, hsome, heq⟩
  · intro h hnc
    obtain ⟨r, hr, c, hc, r2, hr2, c2, hc2, hne, hunit, hsome, heq⟩ := h
    exact hnc r hr c hc r2 hr2 c2 hc2 hne hunit hsome heq

instance (b : Board) : Decidable (HasDup b) :=
  decidable_of_iff _ (not_noConflict_iff_hasDup b)

/-- Executable check equivalent to `BoardExtends`. -/
def extendsCheck (b b' : Board) : Bool :=
  cellList.all fun p =>
    match b p.1 p.2 with
    | none => true
    | some v => decide (b' p.1 p.2 = some v)

theorem extendsCheck_iff (b b' : Board) :
    extendsCheck b b' = true ↔ BoardExtends b b' := by
  unfold extendsCheck
  simp only [List.all_eq_true]
  constructor
  · intro h r hr c hc hsome
    have hm := cellList_mem_of r hr c hc
    have h2 := h (r, c) hm
    obtain ⟨v, hv⟩ := Option.isSome_iff_exists.mp hsome
    rw [hv] at h2 ⊢
    exact of_decide_eq_true h2
  · intro h p hp
    obtain ⟨h1, h2⟩ := cellList_bounds p hp
    cases hv : b p.1 p.2 with
    | none => rfl
    | some v =>
      refine decide_eq_true ?_
      have := h p.1 h1 p.2 h2 (by rw [hv]; rfl)
      rw [this, hv]

instance (b b' : Board) : Decidable (BoardExtends b b') :=
  decidable_of_iff _ (extendsCheck_iff b b')

instance (b b' : Board) : Decidable (SolvesB b b') := by
  unfold SolvesB
  infer_instance

/-! ### The solver never overwrites a filled cell -/

/-- If the continuation preserves filled cells, so does the digit loop. -/
theorem tryDigits_keeps (next : SolverState → Bool × SolverState)
    (Hres : ∀ s t, next s = (false, t) → t = s)
    (Hkeep : ∀ s bo t, next s = (bo, t) →
      ∀ r0 c0 d, s.board r0 c0 = some d → t.board r0 c0 = some d)
    (r c g : Nat) :
    ∀ (L : List Nat) (s : SolverState) (bo : Bool) (s' : SolverState),
      s.board r c = none →
      tryDigits next r c g L s = (bo, s') →
      ∀ r0 c0 d, s.board r0 c0 = some d → s'.board r0 c0 = some d := by
  intro L
  induction L with
  | nil =>
    intro s bo s' _ h r0 c0 d hd
    have : s' = s := (congrArg Prod.snd h).symm
    rw [this]
    exact hd
  | cons i rest ih =>
    intro s bo s' hb h r0 c0 d hd
    unfold tryDigits at h
    by_cases hg : (s.rowVals r i || s.colVals c i || s.gridVals g i) = true
    · rw [if_pos hg] at h
      exact ih s bo s' hb h r0 c0 d hd
    · rw [if_neg hg] at h
      have hg' : (s.rowVals r i || s.colVals c i || s.gridVals g i) = false :=
        Bool.eq_false_iff.mpr hg
      have hne : ¬(r0 = r ∧ c0 = c) := by
        rintro ⟨hr0, hc0⟩
        rw [hr0, hc0, hb] at hd
        exact Option.noConfusion hd
      have hd1 : (place s r c g i).board r0 c0 = some d := by
        show setCell s.board r c (nonZeroU8New (i + 1)) r0 c0 = some d
        rw [setCell_other _ _ _ _ hne]
        exact hd
      rcases hres : next (place s r c g i) with ⟨b1, t⟩
      rw [hres] at h
      cases b1 with
      | true =>
        simp only [if_pos rfl] at h
        have hs' : s' = t := (congrArg Prod.snd h).symm
        rw [hs']
        exact Hkeep _ _ _ hres r0 c0 d hd1
      | false =>
        simp only [if_neg Bool.false_ne_true] at h
        have ht : t = place s r c g i := Hres _ _ hres
        rw [ht, unplace_place s r c g i hb hg'] at h
        exact ih s bo s' hb h r0 c0 d hd

/-- The search never overwrites a filled cell: every cell filled on entry
holds the same digit in the state the search hands back, whether it
succeeds or fails. -/
theorem solveFrom_keeps :
    ∀ (fuel r c : Nat) (s : SolverState) (bo : Bool) (s' : SolverState),
      solveFrom fuel r c s = (bo, s') →
      ∀ r0 c0 d, s.board r0 c0 = some d → s'.board r0 c0 = some d := by
  intro fuel
  induction fuel with
  | zero =>
    intro r c s bo s' h r0 c0 d hd
    have : s' = s := (congrArg Prod.snd h).symm
    rw [this]; exact hd
  | succ n ih =>
    intro r c s bo s' h r0 c0 d hd
    cases hb : s.board r c with
    | some d1 =>
      simp only [solveFrom, hb] at h
      by_cases hc : c + 1 < 9
      · rw [if_pos hc] at h
        exact ih _ _ _ _ _ h r0 c0 d hd
      · rw [if_neg hc] at h
        by_cases hr : r + 1 < 9
        · rw [if_pos hr] at h
          exact ih _ _ _ _ _ h r0 c0 d hd
        · rw [if_neg hr] at h
          have : s' = s := (congrArg Prod.snd h).symm
          rw [this]; exact hd
    | none =>
      simp only [solveFrom, hb] at h
      refine tryDigits_keeps _ ?_ ?_ r c (grid_num r c) digitList s bo s' hb h r0 c0 d hd
      · intro s0 t0 h0
        by_cases hc : c + 1 < 9
        · rw [if_pos hc] at h0
          exact solveFrom_restore _ _ _ _ _ h0
        · rw [if_neg hc] at h0
          by_cases hr : r + 1 < 9
          · rw [if_pos hr] at h0
            exact solveFrom_restore _ _ _ _ _ h0
          · rw [if_neg hr] at h0
            simp at h0
      · intro s0 bo0 t0 h0 r1 c1 d1 hd1
        by_cases hc : c + 1 < 9
        · rw [if_pos hc] at h0
          exact ih _ _ _ _ _ h0 r1 c1 d1 hd1
        · rw [if_neg hc] at h0
          by_cases hr : r + 1 < 9
          · rw [if_pos hr] at h0
            exact ih _ _ _ _ _ h0 r1 c1 d1 hd1
          · rw [if_neg hr] at h0
            have : t0 = s0 := (congrArg Prod.snd h0).symm
            rw [this]; exact hd1

/-! ### The initialization scan -/

/-- At `r, c < 9`, `grid_num` agrees with the integer-division formula and
is in range (the table is behaviorally identical to the formula). -/
theorem grid_num_lt : ∀ r, r < 9 → ∀ c, c < 9 → grid_num r c < 9 := by
  decide

theorem div_mod_lt_9 {k : Nat} (hk : k < 81) : k / 9 < 9 ∧ k % 9 < 9 := by omega

theorem pos_inj {r c r' c' : Nat} (hc : c < 9) (hc' : c' < 9)
    (h : 9 * r + c = 9 * r' + c') : r = r' ∧ c = c' := by omega

theorem cellList_drop_eq :
    ∀ k, k < 81 → cellList.drop k = (k / 9, k % 9) :: cellList.drop (k + 1) := by
  decide

theorem cellList_drop_81 : cellList.drop 81 = [] := by decide

/-- Row-bitset invariant after scanning the first `k` cells. -/
def RowInvUpTo (b : Board) (k : Nat) (rv : Bits) : Prop :=
  ∀ r, r < 9 → ∀ i, i < 9 →
    (rv r i = true ↔ ∃ c, c < 9 ∧ 9 * r + c < k ∧ b r c = some (i + 1))

/-- Column-bitset invariant after scanning the first `k` cells. -/
def ColInvUpTo (b : Board) (k : Nat) (cv : Bits) : Prop :=
  ∀ c, c < 9 → ∀ i, i < 9 →
    (cv c i = true ↔ ∃ r, r < 9 ∧ 9 * r + c < k ∧ b r c = some (i + 1))

/-- Subgrid-bitset invariant after scanning the first `k` cells. -/
def GridInvUpTo (b : Board) (k : Nat) (gv : Bits) : Prop :=
  ∀ g, g < 9 → ∀ i, i < 9 →
    (gv g i = true ↔ ∃ r, r < 9 ∧ ∃ c, c < 9 ∧ grid_num r c = g ∧
      9 * r + c < k ∧ b r c = some (i + 1))

/-- No conflicting pair among the first `k` cells in row-major order. -/
def NoConflictUpTo (b : Board) (k : Nat) : Prop :=
  ∀ r, r < 9 → ∀ c, c < 9 → ∀ r2, r2 < 9 → ∀ c2, c2 < 9 →
    9 * r + c < k → 9 * r2 + c2 < k →
    ¬(r = r2 ∧ c = c2) → (r = r2 ∨ c = c2 ∨ grid_num r c = grid_num r2 c2) →
    (b r c).isSome = true → b r c ≠ b r2 c2

theorem rowInv_zero (b : Board) : RowInvUpTo b 0 falseBits := by
  intro r _ i _
  simp [falseBits]

theorem colInv_zero (b : Board) : ColInvUpTo b 0 falseBits := by
  intro c _ i _
  simp [falseBits]

theorem gridInv_zero (b : Board) : GridInvUpTo b 0 falseBits := by
  intro g _ i _
  simp [falseBits]

theorem noConflictUpTo_zero (b : Board) : NoConflictUpTo b 0 := by
  intro r _ c _ r2 _ c2 _ h
  omega

theorem noConflictUpTo_81 {b : Board} (h : NoConflictUpTo b 81) : NoConflictB b := by
  intro r hr c hc r2 hr2 c2 hc2
  exact h r hr c hc r2 hr2 c2 hc2 (by omega) (by omega)

theorem rowInv_step_none {b : Board} {k : Nat} {rv : Bits} (_hk : k < 81)
    (hinv : RowInvUpTo b k rv) (hb : b (k / 9) (k % 9) = none) :
    RowInvUpTo b (k + 1) rv := by
  intro r hr i hi
  rw [hinv r hr i hi]
  constructor
  · rintro ⟨c, hc, hck, hcell⟩
    exact ⟨c, hc, by omega, hcell⟩
  · rintro ⟨c, hc, hck, hcell⟩
    refine ⟨c, hc, ?_, hcell⟩
    rcases Nat.lt_succ_iff_lt_or_eq.mp hck with h | h
    · exact h
    · exfalso
      obtain ⟨hre, hce⟩ := pos_inj hc (by omega) (h.trans (by omega) :
        9 * r + c = 9 * (k / 9) + k % 9)
      rw [hre, hce, hb] at hcell
      exact Option.noConfusion hcell

theorem colInv_step_none {b : Board} {k : Nat} {cv : Bits} (_hk : k < 81)
    (hinv : ColInvUpTo b k cv) (hb : b (k / 9) (k % 9) = none) :
    ColInvUpTo b (k + 1) cv := by
  intro c hc i hi
  rw [hinv c hc i hi]
  constructor
  · rintro ⟨r, hr, hck, hcell⟩
    exact ⟨r, hr, by omega, hcell⟩
  · rintro ⟨r, hr, hck, hcell⟩
    refine ⟨r, hr, ?_, hcell⟩
    rcases Nat.lt_succ_iff_lt_or_eq.mp hck with h | h
    · exact h
    · exfalso
      obtain ⟨hre, hce⟩ := pos_inj hc (by omega) (h.trans (by omega) :
        9 * r + c = 9 * (k / 9) + k % 9)
      rw [hre, hce, hb] at hcell
      exact Option.noConfusion hcell

theorem gridInv_step_none {b : Board} {k : Nat} {gv : Bits} (_hk : k < 81)
    (hinv : GridInvUpTo b k gv) (hb : b (k / 9) (k % 9) = none) :
    GridInvUpTo b (k + 1) gv := by
  intro g hg i hi
  rw [hinv g hg i hi]
  constructor
  · rintro ⟨r, hr, c, hc, hgn, hck, hcell⟩
    exact ⟨r, hr, c, hc, hgn, by omega, hcell⟩
  · rintro ⟨r, hr, c, hc, hgn, hck, hcell⟩
    refine ⟨r, hr, c, hc, hgn, ?_, hcell⟩
    rcases Nat.lt_succ_iff_lt_or_eq.mp hck with h | h
    · exact h
    · exfalso
      obtain ⟨hre, hce⟩ := pos_inj hc (by omega) (h.trans (by omega) :
        9 * r + c = 9 * (k / 9) + k % 9)
      rw [hre, hce, hb] at hcell
      exact Option.noConfusion hcell

theorem rowInv_step_some {b : Board} {k i0 : Nat} {rv : Bits} (_hk : k < 81)
    (hi0 : i0 < 9) (hinv : RowInvUpTo b k rv)
    (hb : b (k / 9) (k % 9) = some (i0 + 1)) :
    RowInvUpTo b (k + 1) (setBit rv (k / 9) i0 true) := by
  intro r hr i hi
  by_cases hkey : r = k / 9 ∧ i = i0
  · obtain ⟨h1, h2⟩ := hkey
    subst h1; subst h2
    simp only [setBit_self]
    constructor
    · intro _
      exact ⟨k % 9, by omega, by omega, hb⟩
    · intro _
      trivial
  · rw [setBit_other _ _ _ _ hkey, hinv r hr i hi]
    constructor
    · rintro ⟨c, hc, hck, hcell⟩
      exact ⟨c, hc, by omega, hcell⟩
    · rintro ⟨c, hc, hck, hcell⟩
      refine ⟨c, hc, ?_, hcell⟩
      rcases Nat.lt_succ_iff_lt_or_eq.mp hck with h | h
      · exact h
      · exfalso
        obtain ⟨hre, hce⟩ := pos_inj hc (by omega) (h.trans (by omega) :
          9 * r + c = 9 * (k / 9) + k % 9)
        rw [hre, hce, hb] at hcell
        have : i = i0 := by
          have := Option.some.inj hcell
          omega
        exact hkey ⟨hre, this⟩

theorem colInv_step_some {b : Board} {k i0 : Nat} {cv : Bits} (hk : k < 81)
    (hi0 : i0 < 9) (hinv : ColInvUpTo b k cv)
    (hb : b (k / 9) (k % 9) = some (i0 + 1)) :
    ColInvUpTo b (k + 1) (setBit cv (k % 9) i0 true) := by
  intro c hc i hi
  by_cases hkey : c = k % 9 ∧ i = i0
  · obtain ⟨h1, h2⟩ := hkey
    subst h1; subst h2
    simp only [setBit_self]
    constructor
    · intro _
      exact ⟨k / 9, by omega, by omega, hb⟩
    · intro _
      trivial
  · rw [setBit_other _ _ _ _ hkey, hinv c hc i hi]
    constructor
    · rintro ⟨r, hr, hck, hcell⟩
      exact ⟨r, hr, by omega, hcell⟩
    · rintro ⟨r, hr, hck, hcell⟩
      refine ⟨r, hr, ?_, hcell⟩
      rcases Nat.lt_succ_iff_lt_or_eq.mp hck with h | h
      · exact h
      · exfalso
        obtain ⟨hre, hce⟩ := pos_inj hc (by omega) (h.trans (by omega) :
          9 * r + c = 9 * (k / 9) + k % 9)
        rw [hre, hce, hb] at hcell
        have : i = i0 := by
          have := Option.some.inj hcell
          omega
        exact hkey ⟨hce, this⟩

theorem gridInv_step_some {b : Board} {k i0 : Nat} {gv : Bits} (hk : k < 81)
    (hi0 : i0 < 9) (hinv : GridInvUpTo b k gv)
    (hb : b (k / 9) (k % 9) = some (i0 + 1)) :
    GridInvUpTo b (k + 1) (setBit gv (grid_num (k / 9) (k % 9)) i0 true) := by
  intro g hg i hi
  by_cases hkey : g = grid_num (k / 9) (k % 9) ∧ i = i0
  · obtain ⟨h1, h2⟩ := hkey
    subst h1; subst h2
    simp only [setBit_self]
    constructor
    · intro _
      exact ⟨k / 9, by omega, k % 9, by omega, rfl, by omega, hb⟩
    · intro _
      trivial
  · rw [setBit_other _ _ _ _ hkey, hinv g hg i hi]
    constructor
    · rintro ⟨r, hr, c, hc, hgn, hck, hcell⟩
      exact ⟨r, hr, c, hc, hgn, by omega, hcell⟩
    · rintro ⟨r, hr, c, hc, hgn, hck, hcell⟩
      refine ⟨r, hr, c, hc, hgn, ?_, hcell⟩
      rcases Nat.lt_succ_iff_lt_or_eq.mp hck with h | h
      · exact h
      · exfalso
        obtain ⟨hre, hce⟩ := pos_inj hc (by omega) (h.trans (by omega) :
          9 * r + c = 9 * (k / 9) + k % 9)
        have hieq : i = i0 := by
          rw [hre, hce, hb] at hcell
          have := Option.some.inj hcell
          omega
        refine hkey ⟨?_, hieq⟩
        rw [← hgn, hre, hce]

theorem noConflictUpTo_step_none {b : Board} {k : Nat} (_hk : k < 81)
    (hnc : NoConflictUpTo b k) (hcell : b (k / 9) (k % 9) = none) :
    NoConflictUpTo b (k + 1) := by
  intro r hr c hc r2 hr2 c2 hc2 hp1 hp2 hne hunit hsome heq
  by_cases q1 : 9 * r + c = k
  · obtain ⟨hre, hce⟩ := pos_inj hc (by omega) (q1.trans (by omega) :
      9 * r + c = 9 * (k / 9) + k % 9)
    rw [hre, hce, hcell] at hsome
    exact Bool.false_ne_true hsome
  · by_cases q2 : 9 * r2 + c2 = k
    · obtain ⟨hre, hce⟩ := pos_inj hc2 (by omega) (q2.trans (by omega) :
        9 * r2 + c2 = 9 * (k / 9) + k % 9)
      rw [heq, hre, hce, hcell] at hsome
      exact Bool.false_ne_true hsome
    · exact hnc r hr c hc r2 hr2 c2 hc2 (by omega) (by omega) hne hunit hsome heq

theorem noConflictUpTo_step_some {b : Board} {k d : Nat} {rv cv gv : Bits}
    (hk : k < 81) (hd1 : 1 ≤ d) (hd9 : d ≤ 9)
    (hrv : RowInvUpTo b k rv) (hcv : ColInvUpTo b k cv)
    (hgv : GridInvUpTo b k gv) (hnc : NoConflictUpTo b k)
    (hcell : b (k / 9) (k % 9) = some d)
    (hguard : (rv (k / 9) (d - 1) || cv (k % 9) (d - 1) ||
      gv (grid_num (k / 9) (k % 9)) (d - 1)) = false) :
    NoConflictUpTo b (k + 1) := by
  have hd' : d - 1 + 1 = d := by omega
  have hbits : (rv (k / 9) (d - 1) = false ∧ cv (k % 9) (d - 1) = false) ∧
      gv (grid_num (k / 9) (k % 9)) (d - 1) = false := by
    simpa [Bool.or_eq_false_iff] using hguard
  have hrow : ∀ c2, c2 < 9 → 9 * (k / 9) + c2 < k → b (k / 9) c2 ≠ some d := by
    intro c2 hc2 hpos heq
    have : rv (k / 9) (d - 1) = true :=
      (hrv (k / 9) (by omega) (d - 1) (by omega)).mpr
        ⟨c2, hc2, hpos, by rw [hd']; exact heq⟩
    rw [hbits.1.1] at this
    exact Bool.false_ne_true this
  have hcol : ∀ r2, r2 < 9 → 9 * r2 + k % 9 < k → b r2 (k % 9) ≠ some d := by
    intro r2 hr2 hpos heq
    have : cv (k % 9) (d - 1) = true :=
      (hcv (k % 9) (by omega) (d - 1) (by omega)).mpr
        ⟨r2, hr2, hpos, by rw [hd']; exact heq⟩
    rw [hbits.1.2] at this
    exact Bool.false_ne_true this
  have hgrid : ∀ r2, r2 < 9 → ∀ c2, c2 < 9 → 9 * r2 + c2 < k →
      grid_num r2 c2 = grid_num (k / 9) (k % 9) → b r2 c2 ≠ some d := by
    intro r2 hr2 c2 hc2 hpos hgn heq
    have : gv (grid_num (k / 9) (k % 9)) (d - 1) = true :=
      (hgv (grid_num (k / 9) (k % 9)) (grid_num_lt _ (by omega) _ (by omega))
        (d - 1) (by omega)).mpr
        ⟨r2, hr2, c2, hc2, hgn, hpos, by rw [hd']; exact heq⟩
    rw [hbits.2] at this
    exact Bool.false_ne_true this
  intro r hr c hc r2 hr2 c2 hc2 hp1 hp2 hne hunit hsome heq
  by_cases q1 : 9 * r + c = k
  · obtain ⟨hre, hce⟩ := pos_inj hc (by omega) (q1.trans (by omega) :
      9 * r + c = 9 * (k / 9) + k % 9)
    subst hre; subst hce
    have hq2 : 9 * r2 + c2 < k := by
      rcases Nat.lt_succ_iff_lt_or_eq.mp hp2 with h | h
      · exact h
      · exfalso
        obtain ⟨h1, h2⟩ := pos_inj hc2 (by omega) (h.trans q1.symm)
        exact hne ⟨h1.symm, h2.symm⟩
    have hval : b r2 c2 = some d := by
      rw [← heq, hcell]
    rcases hunit with h | h | h
    · exact hrow c2 hc2 (by omega) (by rw [h]; exact hval)
    · exact hcol r2 hr2 (by omega) (by rw [h]; exact hval)
    · exact hgrid r2 hr2 c2 hc2 hq2 h.symm hval
  · by_cases q2 : 9 * r2 + c2 = k
    · obtain ⟨hre, hce⟩ := pos_inj hc2 (by omega) (q2.trans (by omega) :
        9 * r2 + c2 = 9 * (k / 9) + k % 9)
      subst hre; subst hce
      have hq1 : 9 * r + c < k := by omega
      have hval : b r c = some d := by
        rw [heq, hcell]
      rcases hunit with h | h | h
      · exact hrow c hc (by rw [← h]; omega) (by rw [← h]; exact hval)
      · exact hcol r hr (by rw [← h]; omega) (by rw [← h]; exact hval)
      · exact hgrid r hr c hc hq1 h hval
    · exact hnc r hr c hc r2 hr2 c2 hc2 (by omega) (by omega) hne hunit hsome heq

/-- Unfolding of one initialization step (the `let`s of the source inlined). -/
theorem initFrom_cons (b : Board) (r c : Nat) (rest : List (Nat × Nat))
    (rv cv gv : Bits) :
    initFrom b ((r, c) :: rest) rv cv gv =
      match b r c with
      | some d =>
        if rv r (d - 1) || cv c (d - 1) || gv (grid_num r c) (d - 1) then none
        else initFrom b rest (setBit rv r (d - 1) true)
          (setBit cv c (d - 1) true) (setBit gv (grid_num r c) (d - 1) true)
      | none => initFrom b rest rv cv gv := rfl

/-- Main induction over the initialization scan: from a state consistent
with the first `k` cells, the scan either panics (and then the board has a
duplicate) or completes with bitsets consistent with the whole board and a
conflict-free board. -/
theorem initFrom_go {b : Board} (hwf : WellFormedB b) :
    ∀ n k (rv cv gv : Bits), k + n = 81 →
      RowInvUpTo b k rv → ColInvUpTo b k cv → GridInvUpTo b k gv →
      NoConflictUpTo b k →
      ((initFrom b (cellList.drop k) rv cv gv = none → HasDup b) ∧
       (∀ t, initFrom b (cellList.drop k) rv cv gv = some t →
          RowInvUpTo b 81 t.1 ∧ ColInvUpTo b 81 t.2.1 ∧
          GridInvUpTo b 81 t.2.2 ∧ NoConflictB b)) := by
  intro n
  induction n with
  | zero =>
    intro k rv cv gv hkn hrv hcv hgv hnc
    have hk : k = 81 := by omega
    subst hk
    rw [cellList_drop_81]
    constructor
    · intro h
      simp [initFrom] at h
    · intro t ht
      have : t = (rv, cv, gv) := by
        simpa [initFrom] using ht.symm
      rw [this]
      exact ⟨hrv, hcv, hgv, noConflictUpTo_81 hnc⟩
  | succ n ih =>
    intro k rv cv gv hkn hrv hcv hgv hnc
    have hk : k < 81 := by omega
    rw [cellList_drop_eq k hk]
    cases hcell : b (k / 9) (k % 9) with
    | none =>
      rw [initFrom_cons, hcell]
      exact ih (k + 1) rv cv gv (by omega) (rowInv_step_none hk hrv hcell)
        (colInv_step_none hk hcv hcell) (gridInv_step_none hk hgv hcell)
        (noConflictUpTo_step_none hk hnc hcell)
    | some d =>
      obtain ⟨hd1, hd9⟩ := wellFormedB_digit hwf (by omega) (by omega) hcell
      have hd' : d - 1 + 1 = d := by omega
      have hcell' : b (k / 9) (k % 9) = some (d - 1 + 1) := by rw [hd']; exact hcell
      simp only [initFrom_cons, hcell]
      by_cases hguard : (rv (k / 9) (d - 1) || cv (k % 9) (d - 1) ||
          gv (grid_num (k / 9) (k % 9)) (d - 1)) = true
      · rw [if_pos hguard]
        constructor
        · intro _
          rcases Bool.or_eq_true_iff.mp hguard with h | h
          · rcases Bool.or_eq_true_iff.mp h with h1 | h1
            · obtain ⟨c2, hc2, hpos, hv⟩ :=
                (hrv (k / 9) (by omega) (d - 1) (by omega)).mp h1
              rw [hd'] at hv
              exact ⟨k / 9, by omega, k % 9, by omega, k / 9, by omega, c2, hc2,
                by omega, Or.inl rfl, by simp [hcell],
                by rw [hcell, hv]⟩
            · obtain ⟨r2, hr2, hpos, hv⟩ :=
                (hcv (k % 9) (by omega) (d - 1) (by omega)).mp h1
              rw [hd'] at hv
              exact ⟨k / 9, by omega, k % 9, by omega, r2, hr2, k % 9, by omega,
                by omega, Or.inr (Or.inl rfl), by simp [hcell],
                by rw [hcell, hv]⟩
          · obtain ⟨r2, hr2, c2, hc2, hgn, hpos, hv⟩ :=
              (hgv (grid_num (k / 9) (k % 9))
                (grid_num_lt _ (by omega) _ (by omega)) (d - 1) (by omega)).mp h
            rw [hd'] at hv
            refine ⟨k / 9, by omega, k % 9, by omega, r2, hr2, c2, hc2, ?_,
              Or.inr (Or.inr hgn.symm), by simp [hcell], by rw [hcell, hv]⟩
            rintro ⟨h1, h2⟩
            omega
        · intro t ht
          exact Option.noConfusion ht
      · have hguard' : (rv (k / 9) (d - 1) || cv (k % 9) (d - 1) ||
            gv (grid_num (k / 9) (k % 9)) (d - 1)) = false :=
          Bool.eq_false_iff.mpr hguard
        rw [if_neg hguard]
        exact ih (k + 1) _ _ _ (by omega)
          (rowInv_step_some hk (by omega) hrv hcell')
          (colInv_step_some hk (by omega) hcv hcell')
          (gridInv_step_some hk (by omega) hgv hcell')
          (noConflictUpTo_step_some hk hd1 hd9 hrv hcv hgv hnc hcell hguard')

theorem invUpTo81_bitsOcc {b : Board} {rv cv gv : Bits}
    (h1 : RowInvUpTo b 81 rv) (h2 : ColInvUpTo b 81 cv)
    (h3 : GridInvUpTo b 81 gv) : BitsOcc ⟨b, rv, cv, gv⟩ := by
  refine ⟨?_, ?_, ?_⟩
  · intro r hr i hi
    rw [h1 r hr i hi]
    constructor
    · rintro ⟨c, hc, _, hv⟩
      exact ⟨c, hc, hv⟩
    · rintro ⟨c, hc, hv⟩
      exact ⟨c, hc, by omega, hv⟩
  · intro c hc i hi
    rw [h2 c hc i hi]
    constructor
    · rintro ⟨r, hr, _, hv⟩
      exact ⟨r, hr, hv⟩
    · rintro ⟨r, hr, hv⟩
      exact ⟨r, hr, by omega, hv⟩
  · intro g hg i hi
    rw [h3 g hg i hi]
    constructor
    · rintro ⟨r, hr, c, hc, hgn, _, hv⟩
      exact ⟨r, hr, c, hc, hgn, hv⟩
    · rintro ⟨r, hr, c, hc, hgn, hv⟩
      exact ⟨r, hr, c, hc, hgn, by omega, hv⟩

/-- The two outcomes of the initialization scan: a panic means the board has
a duplicate; success means the bitsets are exactly the board's occupancy and
the board is conflict-free. -/
theorem initScan_cases {b : Board} (hwf : WellFormedB b) :
    (initScan b = none → HasDup b) ∧
    (∀ t, initScan b = some t →
      BitsOcc ⟨b, t.1, t.2.1, t.2.2⟩ ∧ NoConflictB b) := by
  have h := initFrom_go hwf 81 0 falseBits falseBits falseBits (by omega)
    (rowInv_zero b) (colInv_zero b) (gridInv_zero b) (noConflictUpTo_zero b)
  rw [List.drop_zero] at h
  constructor
  · exact h.1
  · intro t ht
    obtain ⟨hrv, hcv, hgv, hnc⟩ := h.2 t ht
    exact ⟨invUpTo81_bitsOcc hrv hcv hgv, hnc⟩

theorem hasDup_not_noConflict {b : Board} (h : HasDup b) : ¬ NoConflictB b := by
  obtain ⟨r, hr, c, hc, r2, hr2, c2, hc2, hne, hunit, hsome, heq⟩ := h
  intro hnc
  exact hnc r hr c hc r2 hr2 c2 hc2 hne hunit hsome heq

/-- The initialization scan panics exactly on boards with a duplicate. -/
theorem initScan_none_iff {b : Board} (hwf : WellFormedB b) :
    initScan b = none ↔ HasDup b := by
  constructor
  · exact (initScan_cases hwf).1
  · intro hdup
    cases h : initScan b with
    | none => rfl
    | some t =>
      exact absurd ((initScan_cases hwf).2 t h).2 (hasDup_not_noConflict hdup)

/-! ### The placement step preserves the invariant -/

theorem bitsOcc_place {s : SolverState} {r c i : Nat} (hr : r < 9) (hc : c < 9)
    (hi : i < 9) (hb : s.board r c = none) (hocc : BitsOcc s) :
    BitsOcc (place s r c (grid_num r c) i) := by
  obtain ⟨hrow, hcol, hgrid⟩ := hocc
  refine ⟨?_, ?_, ?_⟩
  · intro r' hr' i' hi'
    show setBit s.rowVals r i true r' i' = true ↔
      ∃ c', c' < 9 ∧ setCell s.board r c (nonZeroU8New (i + 1)) r' c' = some (i' + 1)
    by_cases hkey : r' = r ∧ i' = i
    · obtain ⟨h1, h2⟩ := hkey
      subst h1; subst h2
      simp only [setBit_self]
      exact iff_of_true trivial ⟨c, hc, by simp⟩
    · rw [setBit_other _ _ _ _ hkey, hrow r' hr' i' hi']
      constructor
      · rintro ⟨c', hc', hv⟩
        refine ⟨c', hc', ?_⟩
        rw [setCell_other]
        · exact hv
        · rintro ⟨h1, h2⟩
          rw [h1, h2, hb] at hv
          exact Option.noConfusion hv
      · rintro ⟨c', hc', hv⟩
        by_cases hrc : r' = r ∧ c' = c
        · exfalso
          obtain ⟨h1, h2⟩ := hrc
          rw [h1, h2] at hv
          simp only [setCell_self, nonZeroU8New_succ] at hv
          have : i = i' := by
            have := Option.some.inj hv
            omega
          exact hkey ⟨h1, this.symm⟩
        · rw [setCell_other _ _ _ _ hrc] at hv
          exact ⟨c', hc', hv⟩
  · intro c' hc' i' hi'
    show setBit s.colVals c i true c' i' = true ↔
      ∃ r', r' < 9 ∧ setCell s.board r c (nonZeroU8New (i + 1)) r' c' = some (i' + 1)
    by_cases hkey : c' = c ∧ i' = i
    · obtain ⟨h1, h2⟩ := hkey
      subst h1; subst h2
      simp only [setBit_self]
      exact iff_of_true trivial ⟨r, hr, by simp⟩
    · rw [setBit_other _ _ _ _ hkey, hcol c' hc' i' hi']
      constructor
      · rintro ⟨r', hr', hv⟩
        refine ⟨r', hr', ?_⟩
        rw [setCell_other]
        · exact hv
        · rintro ⟨h1, h2⟩
          rw [h1, h2, hb] at hv
          exact Option.noConfusion hv
      · rintro ⟨r', hr', hv⟩
        by_cases hrc : r' = r ∧ c' = c
        · exfalso
          obtain ⟨h1, h2⟩ := hrc
          rw [h1, h2] at hv
          simp only [setCell_self, nonZeroU8New_succ] at hv
          have : i = i' := by
            have := Option.some.inj hv
            omega
          exact hkey ⟨h2, this.symm⟩
        · rw [setCell_other _ _ _ _ hrc] at hv
          exact ⟨r', hr', hv⟩
  · intro g' hg' i' hi'
    show setBit s.gridVals (grid_num r c) i true g' i' = true ↔
      ∃ r', r' < 9 ∧ ∃ c', c' < 9 ∧ grid_num r' c' = g' ∧
        setCell s.board r c (nonZeroU8New (i + 1)) r' c' = some (i' + 1)
    by_cases hkey : g' = grid_num r c ∧ i' = i
    · obtain ⟨h1, h2⟩ := hkey
      subst h1; subst h2
      simp only [setBit_self]
      exact iff_of_true trivial ⟨r, hr, c, hc, rfl, by simp⟩
    · rw [setBit_other _ _ _ _ hkey, hgrid g' hg' i' hi']
      constructor
      · rintro ⟨r', hr', c', hc', hgn, hv⟩
        refine ⟨r', hr', c', hc', hgn, ?_⟩
        rw [setCell_other]
        · exact hv
        · rintro ⟨h1, h2⟩
          rw [h1, h2, hb] at hv
          exact Option.noConfusion hv
      · rintro ⟨r', hr', c', hc', hgn, hv⟩
        by_cases hrc : r' = r ∧ c' = c
        · exfalso
          obtain ⟨h1, h2⟩ := hrc
          rw [h1, h2] at hv
          simp only [setCell_self, nonZeroU8New_succ] at hv
          have hii : i = i' := by
            have := Option.some.inj hv
            omega
          rw [h1, h2] at hgn
          exact hkey ⟨hgn.symm, hii.symm⟩
        · rw [setCell_other _ _ _ _ hrc] at hv
          exact ⟨r', hr', c', hc', hgn, hv⟩

theorem noConflict_place {s : SolverState} {r c i : Nat} (hr : r < 9)
    (hc : c < 9) (hi : i < 9) (hb : s.board r c = none)
    (hocc : BitsOcc s) (hnc : NoConflictB s.board)
    (hg : (s.rowVals r i || s.colVals c i || s.gridVals g i) = false)
    (hgn : g = grid_num r c) :
    NoConflictB (place s r c g i).board := by
  obtain ⟨hrow, hcol, hgrid⟩ := hocc
  have hbits : (s.rowVals r i = false ∧ s.colVals c i = false) ∧
      s.gridVals g i = false := by
    simpa [Bool.or_eq_false_iff] using hg
  -- no existing cell in the row, column, or subgrid of (r, c) holds i+1
  have hnorow : ∀ c2, c2 < 9 → s.board r c2 ≠ some (i + 1) := by
    intro c2 hc2 hv
    have : s.rowVals r i = true := (hrow r hr i hi).mpr ⟨c2, hc2, hv⟩
    rw [hbits.1.1] at this
    exact Bool.false_ne_true this
  have hnocol : ∀ r2, r2 < 9 → s.board r2 c ≠ some (i + 1) := by
    intro r2 hr2 hv
    have : s.colVals c i = true := (hcol c hc i hi).mpr ⟨r2, hr2, hv⟩
    rw [hbits.1.2] at this
    exact Bool.false_ne_true this
  have hnogrid : ∀ r2, r2 < 9 → ∀ c2, c2 < 9 →
      grid_num r2 c2 = grid_num r c → s.board r2 c2 ≠ some (i + 1) := by
    intro r2 hr2 c2 hc2 hgn2 hv
    have : s.gridVals g i = true := by
      rw [hgn]
      exact (hgrid (grid_num r c) (grid_num_lt r hr c hc) i hi).mpr
        ⟨r2, hr2, c2, hc2, hgn2, hv⟩
    rw [hbits.2] at this
    exact Bool.false_ne_true this
  intro r1 hr1 c1 hc1 r2 hr2 c2 hc2 hne hunit hsome heq
  show False
  have hcell : ∀ r' c', ¬(r' = r ∧ c' = c) →
      (place s r c g i).board r' c' = s.board r' c' := by
    intro r' c' h
    exact setCell_other _ _ _ _ h
  have hnew : (place s r c g i).board r c = some (i + 1) := by
    show setCell s.board r c (nonZeroU8New (i + 1)) r c = some (i + 1)
    simp
  by_cases h1 : r1 = r ∧ c1 = c
  · obtain ⟨e1, e2⟩ := h1
    subst e1; subst e2
    have h2 : ¬(r2 = r1 ∧ c2 = c1) := fun ⟨a1, a2⟩ => hne ⟨a1.symm, a2.symm⟩
    have hv2 : s.board r2 c2 = some (i + 1) := by
      rw [← hcell r2 c2 h2, ← heq, hnew]
    rcases hunit with h | h | h
    · rw [← h] at hv2
      exact hnorow c2 hc2 hv2
    · rw [← h] at hv2
      exact hnocol r2 hr2 hv2
    · exact hnogrid r2 hr2 c2 hc2 h.symm hv2
  · by_cases h2 : r2 = r ∧ c2 = c
    · obtain ⟨e1, e2⟩ := h2
      subst e1; subst e2
      have hv1 : s.board r1 c1 = some (i + 1) := by
        rw [← hcell r1 c1 h1, heq, hnew]
      rcases hunit with h | h | h
      · rw [h] at hv1
        exact hnorow c1 hc1 hv1
      · rw [h] at hv1
        exact hnocol r1 hr1 hv1
      · exact hnogrid r1 hr1 c1 hc1 h hv1
    · rw [hcell r1 c1 h1, hcell r2 c2 h2] at heq
      rw [hcell r1 c1 h1] at hsome
      exact hnc r1 hr1 c1 hc1 r2 hr2 c2 hc2 hne hunit hsome heq

theorem wellFormed_place {s : SolverState} {r c g i : Nat} (hi : i < 9)
    (hwf : WellFormedB s.board) : WellFormedB (place s r c g i).board := by
  intro r' hr' c' hc'
  show cellOK (setCell s.board r c (nonZeroU8New (i + 1)) r' c') = true
  by_cases h : r' = r ∧ c' = c
  · obtain ⟨e1, e2⟩ := h
    subst e1; subst e2
    simp [cellOK]
    omega
  · rw [setCell_other _ _ _ _ h]
    exact hwf r' hr' c' hc'

/-- Placing an unused digit `i+1` on an empty in-range cell preserves the
whole search invariant. -/
theorem stateInv_place {s : SolverState} {r c i : Nat} (hr : r < 9)
    (hc : c < 9) (hi : i < 9) (hb : s.board r c = none) (hst : StateInv s)
    (hg : (s.rowVals r i || s.colVals c i || s.gridVals (grid_num r c) i) = false) :
    StateInv (place s r c (grid_num r c) i) := by
  obtain ⟨hocc, hnc, hwf⟩ := hst
  exact ⟨bitsOcc_place hr hc hi hb hocc,
    noConflict_place hr hc hi hb hocc hnc hg rfl,
    wellFormed_place hi hwf⟩

/-! ### Success analysis of the digit loop -/

/-- The one-step position advance (the continuation built into
`solve_sudoku_from`) restores nothing on failure beyond what the recursive
call restores. -/
theorem solveStep_restore (n r c : Nat) (s t : SolverState) :
    (if c + 1 < 9 then solveFrom n r (c + 1) s
     else if r + 1 < 9 then solveFrom n (r + 1) 0 s else (true, s)) = (false, t) →
    t = s := by
  intro h
  by_cases hc : c + 1 < 9
  · rw [if_pos hc] at h
    exact solveFrom_restore _ _ _ _ _ h
  · rw [if_neg hc] at h
    by_cases hr : r + 1 < 9
    · rw [if_pos hr] at h
      exact solveFrom_restore _ _ _ _ _ h
    · rw [if_neg hr] at h
      simp at h

/-- Characterization of a successful digit loop: some digit `i` of the
candidate list has all three guard bits clear and a succeeding continuation,
every candidate before it was skipped or failed, and the loop's result is
the continuation's result on the board with `i+1` placed. -/
theorem tryDigits_true (next : SolverState → Bool × SolverState)
    (Hres : ∀ s t, next s = (false, t) → t = s) (r c g : Nat) :
    ∀ (L : List Nat) (s s' : SolverState), s.board r c = none →
      tryDigits next r c g L s = (true, s') →
      ∃ pre i post, L = pre ++ i :: post ∧
        (s.rowVals r i || s.colVals c i || s.gridVals g i) = false ∧
        next (place s r c g i) = (true, s') ∧
        ∀ j ∈ pre, (s.rowVals r j || s.colVals c j || s.gridVals g j) = true ∨
          (next (place s r c g j)).1 = false := by
  intro L
  induction L with
  | nil =>
    intro s s' _ h
    exact absurd (congrArg Prod.fst h) (by simp [tryDigits])
  | cons i0 rest ih =>
    intro s s' hb h
    unfold tryDigits at h
    by_cases hg : (s.rowVals r i0 || s.colVals c i0 || s.gridVals g i0) = true
    · rw [if_pos hg] at h
      obtain ⟨pre, i, post, heqL, hgf, hnext, hpre⟩ := ih s s' hb h
      refine ⟨i0 :: pre, i, post, by rw [heqL]; rfl, hgf, hnext, ?_⟩
      intro j hj
      rcases List.mem_cons.mp hj with he | hm
      · rw [he]
        exact Or.inl hg
      · exact hpre j hm
    · rw [if_neg hg] at h
      have hg' : (s.rowVals r i0 || s.colVals c i0 || s.gridVals g i0) = false :=
        Bool.eq_false_iff.mpr hg
      rcases hres : next (place s r c g i0) with ⟨b1, t⟩
      rw [hres] at h
      cases b1 with
      | true =>
        simp only [if_pos rfl] at h
        have hs' : t = s' := congrArg Prod.snd h
        refine ⟨[], i0, rest, rfl, hg', by rw [hres, hs'], ?_⟩
        intro j hj
        exact absurd hj (List.not_mem_nil j)
      | false =>
        simp only [if_neg Bool.false_ne_true] at h
        have ht : t = place s r c g i0 := Hres _ _ hres
        rw [ht, unplace_place s r c g i0 hb hg'] at h
        obtain ⟨pre, i, post, heqL, hgf, hnext, hpre⟩ := ih s s' hb h
        refine ⟨i0 :: pre, i, post, by rw [heqL]; rfl, hgf, hnext, ?_⟩
        intro j hj
        rcases List.mem_cons.mp hj with he | hm
        · rw [he]
          refine Or.inr ?_
          rw [hres]
        · exact hpre j hm

/-- If some candidate digit of the list has clear guard bits and a
succeeding continuation, the digit loop succeeds. -/
theorem tryDigits_succeeds (next : SolverState → Bool × SolverState)
    (Hres : ∀ s t, next s = (false, t) → t = s) (r c g : Nat) :
    ∀ (L : List Nat) (s : SolverState), s.board r c = none →
      ∀ i, i ∈ L →
        (s.rowVals r i || s.colVals c i || s.gridVals g i) = false →
        (next (place s r c g i)).1 = true →
        (tryDigits next r c g L s).1 = true := by
  intro L
  induction L with
  | nil =>
    intro s _ i hiL
    exact absurd hiL (List.not_mem_nil i)
  | cons j rest ih =>
    intro s hb i hiL hguard hnext
    unfold tryDigits
    by_cases hg : (s.rowVals r j || s.colVals c j || s.gridVals g j) = true
    · rw [if_pos hg]
      rcases List.mem_cons.mp hiL with he | hm
      · exfalso
        rw [← he] at hg
        rw [hguard] at hg
        exact Bool.false_ne_true hg
      · exact ih s hb i hm hguard hnext
    · rw [if_neg hg]
      have hg' : (s.rowVals r j || s.colVals c j || s.gridVals g j) = false :=
        Bool.eq_false_iff.mpr hg
      rcases hres : next (place s r c g j) with ⟨b1, t⟩
      cases b1 with
      | true => simp
      | false =>
        simp only [if_neg Bool.false_ne_true]
        have ht : t = place s r c g j := Hres _ _ hres
        rw [ht, unplace_place s r c g j hb hg']
        rcases List.mem_cons.mp hiL with he | hm
        · exfalso
          rw [← he] at hres
          rw [hres] at hnext
          simp at hnext
        · exact ih s hb i hm hguard hnext

/-! ### Completeness of the search -/

/-- If a valid completion `bs` of the current board assigns `d` to the empty
in-range cell `(r, c)`, then under exact bitset occupancy none of the three
guard bits of digit `d` can be set. -/
theorem guard_clear_of_solution {s : SolverState} {bs : Board} {r c d : Nat}
    (hr : r < 9) (hc : c < 9) (hocc : BitsOcc s) (hb : s.board r c = none)
    (hnc : NoConflictB bs) (hext : BoardExtends s.board bs)
    (hd : bs r c = some d) (hd1 : 1 ≤ d) (hd9 : d ≤ 9) :
    (s.rowVals r (d - 1) || s.colVals c (d - 1) ||
      s.gridVals (grid_num r c) (d - 1)) = false := by
  have hdi : d - 1 + 1 = d := by omega
  have hrowF : s.rowVals r (d - 1) = false := by
    cases hrv : s.rowVals r (d - 1) with
    | false => rfl
    | true =>
      exfalso
      obtain ⟨c2, hc2, hv⟩ := (hocc.1 r hr (d - 1) (by omega)).mp hrv
      rw [hdi] at hv
      have hbs2 : bs r c2 = some d := boardExtends_some hext hr hc2 hv
      have hne : ¬(r = r ∧ c = c2) := by
        rintro ⟨_, he⟩
        rw [← he, hb] at hv
        exact Option.noConfusion hv
      exact noConflictB_ne hnc hr hc hr hc2 hne (Or.inl rfl) hd hbs2
  have hcolF : s.colVals c (d - 1) = false := by
    cases hcv : s.colVals c (d - 1) with
    | false => rfl
    | true =>
      exfalso
      obtain ⟨r2, hr2, hv⟩ := (hocc.2.1 c hc (d - 1) (by omega)).mp hcv
      rw [hdi] at hv
      have hbs2 : bs r2 c = some d := boardExtends_some hext hr2 hc hv
      have hne : ¬(r = r2 ∧ c = c) := by
        rintro ⟨he, _⟩
        rw [← he, hb] at hv
        exact Option.noConfusion hv
      exact noConflictB_ne hnc hr hc hr2 hc (hne) (Or.inr (Or.inl rfl)) hd hbs2
  have hgridF : s.gridVals (grid_num r c) (d - 1) = false := by
    cases hgv : s.gridVals (grid_num r c) (d - 1) with
    | false => rfl
    | true =>
      exfalso
      obtain ⟨r2, hr2, c2, hc2, hgn, hv⟩ :=
        (hocc.2.2 (grid_num r c) (grid_num_lt r hr c hc) (d - 1)
          (by omega)).mp hgv
      rw [hdi] at hv
      have hbs2 : bs r2 c2 = some d := boardExtends_some hext hr2 hc2 hv
      have hne : ¬(r = r2 ∧ c = c2) := by
        rintro ⟨he1, he2⟩
        rw [← he1, ← he2, hb] at hv
        exact Option.noConfusion hv
      exact noConflictB_ne hnc hr hc hr2 hc2 hne (Or.inr (Or.inr hgn.symm))
        hd hbs2
  rw [hrowF, hcolF, hgridF]
  rfl

/-- A valid completion of the pre-placement board that assigns exactly the
placed digit at the placed cell extends the post-placement board. -/
theorem boardExtends_place {s : SolverState} {bs : Board} {r c g i : Nat}
    (hext : BoardExtends s.board bs) (hd : bs r c = some (i + 1)) :
    BoardExtends (place s r c g i).board bs := by
  intro r0 hr0 c0 hc0 hsome
  by_cases hrc : r0 = r ∧ c0 = c
  · obtain ⟨e1, e2⟩ := hrc
    subst e1; subst e2
    show bs r0 c0 = setCell s.board r0 c0 (nonZeroU8New (i + 1)) r0 c0
    rw [setCell_self, nonZeroU8New_succ, hd]
  · show bs r0 c0 = setCell s.board r c (nonZeroU8New (i + 1)) r0 c0
    rw [setCell_other _ _ _ _ hrc]
    have hsome' : (setCell s.board r c (nonZeroU8New (i + 1)) r0 c0).isSome
        = true := hsome
    rw [setCell_other _ _ _ _ hrc] at hsome'
    exact hext r0 hr0 c0 hc0 hsome'

theorem solveFrom_complete :
    ∀ (fuel r c : Nat) (s : SolverState), r < 9 → c < 9 →
      81 - (9 * r + c) ≤ fuel → StateInv s →
      (∃ bs, FilledB bs ∧ NoConflictB bs ∧ WellFormedB bs ∧
        BoardExtends s.board bs) →
      (solveFrom fuel r c s).1 = true := by
  intro fuel
  induction fuel with
  | zero =>
    intro r c s hr hc hf _ _
    omega
  | succ n ih =>
    intro r c s hr hc hf hst hex
    obtain ⟨bs, hfill, hnc, hwfs, hext⟩ := hex
    cases hb : s.board r c with
    | some d =>
      simp only [solveFrom, hb]
      by_cases hc1 : c + 1 < 9
      · rw [if_pos hc1]
        exact ih r (c + 1) s hr hc1 (by omega) hst ⟨bs, hfill, hnc, hwfs, hext⟩
      · rw [if_neg hc1]
        by_cases hr1 : r + 1 < 9
        · rw [if_pos hr1]
          exact ih (r + 1) 0 s hr1 (by omega) (by omega) hst
            ⟨bs, hfill, hnc, hwfs, hext⟩
        · rw [if_neg hr1]
    | none =>
      simp only [solveFrom, hb]
      obtain ⟨hocc, hncs, hwf⟩ := hst
      -- the digit the solution uses at this cell
      obtain ⟨d, hd⟩ := Option.isSome_iff_exists.mp (hfill r hr c hc)
      obtain ⟨hd1, hd9⟩ := wellFormedB_digit hwfs hr hc hd
      have hdi : d - 1 + 1 = d := by omega
      have hiL : d - 1 ∈ digitList := List.mem_range.mpr (by omega)
      have hguard : (s.rowVals r (d - 1) || s.colVals c (d - 1) ||
          s.gridVals (grid_num r c) (d - 1)) = false :=
        guard_clear_of_solution hr hc hocc hb hnc hext hd hd1 hd9
      -- placing that digit, the rest of the search succeeds
      have hst1 : StateInv (place s r c (grid_num r c) (d - 1)) :=
        stateInv_place hr hc (by omega) hb ⟨hocc, hncs, hwf⟩ hguard
      have hextend1 : BoardExtends (place s r c (grid_num r c) (d - 1)).board bs :=
        boardExtends_place hext (by rw [hdi]; exact hd)
      refine tryDigits_succeeds _ (fun s0 t0 => solveStep_restore n r c s0 t0)
        r c (grid_num r c) digitList s hb (d - 1) hiL hguard ?_
      by_cases hc1 : c + 1 < 9
      · simp only [if_pos hc1]
        exact ih r (c + 1) _ hr hc1 (by omega) hst1
          ⟨bs, hfill, hnc, hwfs, hextend1⟩
      · simp only [if_neg hc1]
        by_cases hr1 : r + 1 < 9
        · simp only [if_pos hr1]
          exact ih (r + 1) 0 _ hr1 (by omega) (by omega) hst1
            ⟨bs, hfill, hnc, hwfs, hextend1⟩
        · simp only [if_neg hr1]

/-! ### Soundness of the search -/

theorem filledFrom_cons {bd : Board} {r c : Nat} (_hr : r < 9) (hc : c < 9)
    (hcell : (bd r c).isSome = true)
    (hrest : ∀ r0 c0, r0 < 9 → c0 < 9 → 9 * r + c + 1 ≤ 9 * r0 + c0 →
      (bd r0 c0).isSome = true) :
    ∀ r0 c0, r0 < 9 → c0 < 9 → 9 * r + c ≤ 9 * r0 + c0 →
      (bd r0 c0).isSome = true := by
  intro r0 c0 h0 h1 hp
  by_cases he : 9 * r + c = 9 * r0 + c0
  · obtain ⟨e1, e2⟩ := pos_inj hc h1 he
    rw [← e1, ← e2]
    exact hcell
  · exact hrest r0 c0 h0 h1 (by omega)

/-- Soundness: a successful search hands back a state satisfying the full
invariant whose board is filled at every position from the start position
on. -/
theorem solveFrom_sound :
    ∀ (fuel r c : Nat) (s s' : SolverState), r < 9 → c < 9 →
      StateInv s → solveFrom fuel r c s = (true, s') →
      StateInv s' ∧
      ∀ r0 c0, r0 < 9 → c0 < 9 → 9 * r + c ≤ 9 * r0 + c0 →
        (s'.board r0 c0).isSome = true := by
  intro fuel
  induction fuel with
  | zero =>
    intro r c s s' _ _ _ h
    simp [solveFrom] at h
  | succ n ih =>
    intro r c s s' hr hc hst h
    cases hb : s.board r c with
    | some d =>
      have hkeep := solveFrom_keeps (n + 1) r c s true s' h
      simp only [solveFrom, hb] at h
      by_cases hc1 : c + 1 < 9
      · rw [if_pos hc1] at h
        obtain ⟨hst', hfill⟩ := ih r (c + 1) s s' hr hc1 hst h
        refine ⟨hst', filledFrom_cons hr hc ?_ ?_⟩
        · rw [hkeep r c d hb]
          rfl
        · intro r0 c0 h0 h1 hp
          exact hfill r0 c0 h0 h1 (by omega)
      · rw [if_neg hc1] at h
        by_cases hr1 : r + 1 < 9
        · rw [if_pos hr1] at h
          obtain ⟨hst', hfill⟩ := ih (r + 1) 0 s s' hr1 (by omega) hst h
          refine ⟨hst', filledFrom_cons hr hc ?_ ?_⟩
          · rw [hkeep r c d hb]
            rfl
          · intro r0 c0 h0 h1 hp
            exact hfill r0 c0 h0 h1 (by omega)
        · rw [if_neg hr1] at h
          have hs : s' = s := (congrArg Prod.snd h).symm
          subst hs
          refine ⟨hst, ?_⟩
          intro r0 c0 h0 h1 hp
          have hpos : 9 * r + c = 9 * r0 + c0 := by omega
          obtain ⟨e1, e2⟩ := pos_inj hc h1 hpos
          rw [← e1, ← e2, hb]
          rfl
    | none =>
      simp only [solveFrom, hb] at h
      obtain ⟨pre, i, post, heqL, hguardF, hnext, _⟩ :=
        tryDigits_true _ (fun s0 t0 => solveStep_restore n r c s0 t0)
          r c (grid_num r c) digitList s s' hb h
      have hi9 : i < 9 := by
        have hmem : i ∈ digitList := by
          rw [heqL]
          exact List.mem_append.mpr (Or.inr (List.mem_cons_self i post))
        exact List.mem_range.mp hmem
      have hst1 : StateInv (place s r c (grid_num r c) i) :=
        stateInv_place hr hc hi9 hb hst hguardF
      have hcell1 : (place s r c (grid_num r c) i).board r c = some (i + 1) := by
        show setCell s.board r c (nonZeroU8New (i + 1)) r c = some (i + 1)
        simp
      by_cases hc1 : c + 1 < 9
      · simp only [if_pos hc1] at hnext
        have hkeep := solveFrom_keeps n r (c + 1) _ true s' hnext
        obtain ⟨hst', hfill⟩ := ih r (c + 1) _ s' hr hc1 hst1 hnext
        refine ⟨hst', filledFrom_cons hr hc ?_ ?_⟩
        · rw [hkeep r c (i + 1) hcell1]
          rfl
        · intro r0 c0 h0 h1 hp
          exact hfill r0 c0 h0 h1 (by omega)
      · simp only [if_neg hc1] at hnext
        by_cases hr1 : r + 1 < 9
        · simp only [if_pos hr1] at hnext
          have hkeep := solveFrom_keeps n (r + 1) 0 _ true s' hnext
          obtain ⟨hst', hfill⟩ := ih (r + 1) 0 _ s' hr1 (by omega) hst1 hnext
          refine ⟨hst', filledFrom_cons hr hc ?_ ?_⟩
          · rw [hkeep r c (i + 1) hcell1]
            rfl
          · intro r0 c0 h0 h1 hp
            exact hfill r0 c0 h0 h1 (by omega)
        · simp only [if_neg hr1] at hnext
          have hs : s' = place s r c (grid_num r c) i :=
            (congrArg Prod.snd hnext).symm
          subst hs
          refine ⟨hst1, ?_⟩
          intro r0 c0 h0 h1 hp
          have hpos : 9 * r + c = 9 * r0 + c0 := by omega
          obtain ⟨e1, e2⟩ := pos_inj hc h1 hpos
          rw [← e1, ← e2, hcell1]
          rfl

/-- Unfolding lemma for `solve_puzzle` when the initialization succeeds. -/
theorem solve_puzzle_some {b : Board} {rv cv gv : Bits}
    (h : initScan b = some (rv, cv, gv)) :
    solve_puzzle b = some ((solveFrom 81 0 0 ⟨b, rv, cv, gv⟩).1,
      (solveFrom 81 0 0 ⟨b, rv, cv, gv⟩).2.board) := by
  simp [solve_puzzle, h]

/-- Unfolding lemma for `solve_puzzle` when the initialization panics. -/
theorem solve_puzzle_none {b : Board} (h : initScan b = none) :
    solve_puzzle b = none := by
  simp [solve_puzzle, h]

/-! ### Semantics of the validity checker -/

theorem setSeen_false_iff (seen : Nat → Bool) (i j : Nat) :
    setSeen seen i j = false ↔ j ≠ i ∧ seen j = false := by
  unfold setSeen
  by_cases h : j = i
  · simp [h]
  · simp [h]

/-- The per-phase scan returns `true` exactly when every listed cell is
filled, no listed value index was seen on entry, and the listed cells'
value indices are pairwise distinct. -/
theorem checkCells_true_iff (b : Board) :
    ∀ (P : List (Nat × Nat)) (seen : Nat → Bool),
      checkCells b P seen = true ↔
        (∀ p ∈ P, (b p.1 p.2).isSome = true ∧
          seen ((b p.1 p.2).getD 0 - 1) = false) ∧
        List.Pairwise (fun p q =>
          (b p.1 p.2).getD 0 - 1 ≠ (b q.1 q.2).getD 0 - 1) P := by
  intro P
  induction P with
  | nil =>
    intro seen
    simp [checkCells]
  | cons p rest ih =>
    intro seen
    rcases p with ⟨r, c⟩
    cases hcell : b r c with
    | none =>
      apply iff_of_false
      · simp [checkCells, hcell]
      · rintro ⟨hall, _⟩
        have := (hall (r, c) (List.mem_cons_self _ _)).1
        rw [hcell] at this
        exact Bool.false_ne_true this
    | some v =>
      by_cases hseen : seen (v - 1) = true
      · apply iff_of_false
        · simp [checkCells, hcell, hseen]
        · rintro ⟨hall, _⟩
          have := (hall (r, c) (List.mem_cons_self _ _)).2
          rw [hcell] at this
          simp only [Option.getD_some] at this
          rw [hseen] at this
          exact Bool.noConfusion this
      · have hseen' : seen (v - 1) = false := Bool.eq_false_iff.mpr hseen
        have hstep : checkCells b ((r, c) :: rest) seen =
            checkCells b rest (setSeen seen (v - 1)) := by
          simp [checkCells, hcell, hseen']
        rw [hstep, ih (setSeen seen (v - 1))]
        constructor
        · rintro ⟨hall, hpw⟩
          refine ⟨?_, ?_⟩
          · intro q hq
            rcases List.mem_cons.mp hq with he | hm
            · rw [he]
              refine ⟨by rw [hcell]; rfl, ?_⟩
              rw [hcell]
              simpa using hseen'
            · obtain ⟨h1, h2⟩ := hall q hm
              exact ⟨h1, ((setSeen_false_iff _ _ _).mp h2).2⟩
          · rw [List.pairwise_cons]
            refine ⟨?_, hpw⟩
            intro q hq
            have h2 := (hall q hq).2
            have := ((setSeen_false_iff _ _ _).mp h2).1
            rw [hcell]
            simpa using this.symm
        · rintro ⟨hall, hpw⟩
          rw [List.pairwise_cons] at hpw
          refine ⟨?_, hpw.2⟩
          intro q hq
          obtain ⟨h1, h2⟩ := hall q (List.mem_cons_of_mem _ hq)
          refine ⟨h1, (setSeen_false_iff _ _ _).mpr ⟨?_, h2⟩⟩
          have := hpw.1 q hq
          rw [hcell] at this
          simpa using this.symm

/-! Finite facts about the scanned cell lists, settled by computation. -/

theorem rowCells_mem : ∀ r, r < 9 → ∀ c, c < 9 → (r, c) ∈ rowCells r := by
  decide

theorem rowCells_shape : ∀ r, r < 9 → ∀ p ∈ rowCells r, p.1 = r ∧ p.2 < 9 := by
  decide

theorem rowCells_nodup : ∀ r, r < 9 → (rowCells r).Nodup := by
  decide

theorem colCells_mem : ∀ c, c < 9 → ∀ r, r < 9 → (r, c) ∈ colCells c := by
  decide

theorem colCells_shape : ∀ c, c < 9 → ∀ p ∈ colCells c, p.2 = c ∧ p.1 < 9 := by
  decide

theorem colCells_nodup : ∀ c, c < 9 → (colCells c).Nodup := by
  decide

theorem boxCells_mem : ∀ r, r < 9 → ∀ c, c < 9 →
    (r, c) ∈ boxCells (3 * (grid_num r c / 3)) (3 * (grid_num r c % 3)) := by
  decide

theorem boxCorner_mem : ∀ g, g < 9 →
    3 * (g / 3) ∈ ([0, 3, 6] : List Nat) ∧ 3 * (g % 3) ∈ ([0, 3, 6] : List Nat) := by
  decide

theorem boxCells_nodup : ∀ i ∈ ([0, 3, 6] : List Nat),
    ∀ j ∈ ([0, 3, 6] : List Nat), (boxCells i j).Nodup := by
  decide

theorem boxCells_shape : ∀ i ∈ ([0, 3, 6] : List Nat),
    ∀ j ∈ ([0, 3, 6] : List Nat), ∀ p ∈ boxCells i j, p.1 < 9 ∧ p.2 < 9 := by
  decide

theorem boxCells_same_grid : ∀ i ∈ ([0, 3, 6] : List Nat),
    ∀ j ∈ ([0, 3, 6] : List Nat), ∀ p ∈ boxCells i j, ∀ q ∈ boxCells i j,
      grid_num p.1 p.2 = grid_num q.1 q.2 := by
  decide

/-- `check_puzzle` in terms of its three phases. -/
theorem check_puzzle_phases (b : Board) :
    check_puzzle b = true ↔
      (∀ r ∈ List.range 9, checkCells b (rowCells r) (fun _ => false) = true) ∧
      (∀ c ∈ List.range 9, checkCells b (colCells c) (fun _ => false) = true) ∧
      (∀ i ∈ ([0, 3, 6] : List Nat), ∀ j ∈ ([0, 3, 6] : List Nat),
        checkCells b (boxCells i j) (fun _ => false) = true) := by
  simp [check_puzzle, Bool.and_eq_true, List.all_eq_true, and_assoc]

/-- `check_puzzle` returns `true` exactly on filled, conflict-free boards
(assuming well-formed cell values, as the Rust cell type enforces modulo
the 10-255 gap). -/
theorem check_puzzle_true_iff {b : Board} (hwf : WellFormedB b) :
    check_puzzle b = true ↔ FilledB b ∧ NoConflictB b := by
  rw [check_puzzle_phases]
  constructor
  · rintro ⟨hrow, hcol, hbox⟩
    have hfill : FilledB b := by
      intro r hr c hc
      have h := (checkCells_true_iff b (rowCells r) _).mp
        (hrow r (List.mem_range.mpr hr))
      exact (h.1 (r, c) (rowCells_mem r hr c hc)).1
    refine ⟨hfill, ?_⟩
    intro r1 hr1 c1 hc1 r2 hr2 c2 hc2 hne hunit hsome heq
    obtain ⟨v1, hv1⟩ := Option.isSome_iff_exists.mp hsome
    have hv2 : b r2 c2 = some v1 := by rw [← heq, hv1]
    have hvgt : 1 ≤ v1 := (wellFormedB_digit hwf hr1 hc1 hv1).1
    have hidx : ((b r1 c1).getD 0 - 1 ≠ (b r2 c2).getD 0 - 1) → False := by
      intro hcon
      rw [hv1, hv2] at hcon
      exact hcon rfl
    have hpne : ((r1, c1) : Nat × Nat) ≠ (r2, c2) := by
      intro hp
      exact hne ⟨congrArg Prod.fst hp, congrArg Prod.snd hp⟩
    have hsym : Symmetric (fun p q : Nat × Nat =>
        (b p.1 p.2).getD 0 - 1 ≠ (b q.1 q.2).getD 0 - 1) :=
      fun p q h => h.symm
    rcases hunit with h | h | h
    · subst h
      have hc := (checkCells_true_iff b (rowCells r1) _).mp
        (hrow r1 (List.mem_range.mpr hr1))
      exact hidx (hc.2.forall hsym (rowCells_mem r1 hr1 c1 hc1)
        (rowCells_mem r1 hr1 c2 hc2) hpne)
    · subst h
      have hc := (checkCells_true_iff b (colCells c1) _).mp
        (hcol c1 (List.mem_range.mpr hc1))
      exact hidx (hc.2.forall hsym (colCells_mem c1 hc1 r1 hr1)
        (colCells_mem c1 hc1 r2 hr2) hpne)
    · have hg9 : grid_num r1 c1 < 9 := grid_num_lt r1 hr1 c1 hc1
      obtain ⟨hmi, hmj⟩ := boxCorner_mem (grid_num r1 c1) hg9
      have hm1 := boxCells_mem r1 hr1 c1 hc1
      have hm2 := boxCells_mem r2 hr2 c2 hc2
      rw [← h] at hm2
      have hc := (checkCells_true_iff b
        (boxCells (3 * (grid_num r1 c1 / 3)) (3 * (grid_num r1 c1 % 3))) _).mp
        (hbox _ hmi _ hmj)
      exact hidx (hc.2.forall hsym hm1 hm2 hpne)
  · rintro ⟨hfill, hnc⟩
    have hidx_ne : ∀ p q : Nat × Nat, p.1 < 9 → p.2 < 9 → q.1 < 9 → q.2 < 9 →
        p ≠ q →
        (p.1 = q.1 ∨ p.2 = q.2 ∨ grid_num p.1 p.2 = grid_num q.1 q.2) →
        (b p.1 p.2).getD 0 - 1 ≠ (b q.1 q.2).getD 0 - 1 := by
      intro p q h1 h2 h3 h4 hpq hunit
      obtain ⟨v1, hv1⟩ := Option.isSome_iff_exists.mp (hfill p.1 h1 p.2 h2)
      obtain ⟨v2, hv2⟩ := Option.isSome_iff_exists.mp (hfill q.1 h3 q.2 h4)
      have hw1 := (wellFormedB_digit hwf h1 h2 hv1).1
      have hw2 := (wellFormedB_digit hwf h3 h4 hv2).1
      have hne' : ¬(p.1 = q.1 ∧ p.2 = q.2) := by
        rintro ⟨e1, e2⟩
        exact hpq (Prod.ext e1 e2)
      have hvne : b p.1 p.2 ≠ b q.1 q.2 :=
        hnc p.1 h1 p.2 h2 q.1 h3 q.2 h4 hne' hunit (by rw [hv1]; rfl)
      rw [hv1, hv2]
      simp only [Option.getD_some]
      intro hcon
      apply hvne
      rw [hv1, hv2]
      have : v1 = v2 := by omega
      rw [this]
    refine ⟨?_, ?_, ?_⟩
    · intro r hrm
      have hr := List.mem_range.mp hrm
      rw [checkCells_true_iff]
      refine ⟨?_, ?_⟩
      · intro p hp
        obtain ⟨he, hpc⟩ := rowCells_shape r hr p hp
        exact ⟨by rw [he]; exact hfill r hr p.2 hpc, rfl⟩
      · refine (rowCells_nodup r hr).pairwise_of_forall_ne ?_
        intro p hp q hq hpq
        obtain ⟨he1, hc1⟩ := rowCells_shape r hr p hp
        obtain ⟨he2, hc2⟩ := rowCells_shape r hr q hq
        exact hidx_ne p q (by omega) hc1 (by omega) hc2 hpq
          (Or.inl (by rw [he1, he2]))
    · intro c hcm
      have hc := List.mem_range.mp hcm
      rw [checkCells_true_iff]
      refine ⟨?_, ?_⟩
      · intro p hp
        obtain ⟨he, hpr⟩ := colCells_shape c hc p hp
        exact ⟨by rw [he]; exact hfill p.1 hpr c hc, rfl⟩
      · refine (colCells_nodup c hc).pairwise_of_forall_ne ?_
        intro p hp q hq hpq
        obtain ⟨he1, hr1⟩ := colCells_shape c hc p hp
        obtain ⟨he2, hr2⟩ := colCells_shape c hc q hq
        exact hidx_ne p q hr1 (by omega) hr2 (by omega) hpq
          (Or.inr (Or.inl (by rw [he1, he2])))
    · intro i hi j hj
      rw [checkCells_true_iff]
      refine ⟨?_, ?_⟩
      · intro p hp
        obtain ⟨h1, h2⟩ := boxCells_shape i hi j hj p hp
        exact ⟨hfill p.1 h1 p.2 h2, rfl⟩
      · refine (boxCells_nodup i hi j hj).pairwise_of_forall_ne ?_
        intro p hp q hq hpq
        obtain ⟨h1, h2⟩ := boxCells_shape i hi j hj p hp
        obtain ⟨h3, h4⟩ := boxCells_shape i hi j hj q hq
        exact hidx_ne p q h1 h2 h3 h4 hpq
          (Or.inr (Or.inr (boxCells_same_grid i hi j hj p hp q hq)))

/-! ### The retraction step preserves the bitset-occupancy invariant -/

/-- Retracting the digit `i+1` from a cell that holds it (with no conflicting
duplicate anywhere, as the search maintains) restores exact occupancy. -/
theorem bitsOcc_unplace {s : SolverState} {r c i : Nat} (hr : r < 9) (hc : c < 9)
    (hi : i < 9) (hb : s.board r c = some (i + 1)) (hocc : BitsOcc s)
    (hnc : NoConflictB s.board) :
    BitsOcc (unplace s r c (grid_num r c) i) := by
  obtain ⟨hrow, hcol, hgrid⟩ := hocc
  refine ⟨?_, ?_, ?_⟩
  · intro r' hr' i' hi'
    show setBit s.rowVals r i false r' i' = true ↔
      ∃ c', c' < 9 ∧ setCell s.board r c none r' c' = some (i' + 1)
    by_cases hkey : r' = r ∧ i' = i
    · obtain ⟨h1, h2⟩ := hkey
      subst h1; subst h2
      simp only [setBit_self]
      apply iff_of_false (by simp)
      rintro ⟨c', hc', hv⟩
      by_cases he : c' = c
      · rw [he] at hv
        rw [setCell_self] at hv
        exact Option.noConfusion hv
      · rw [setCell_other _ _ _ _ (fun h => he h.2)] at hv
        exact noConflictB_ne hnc hr' hc hr' hc'
          (fun h => he h.2.symm) (Or.inl rfl) hb hv
    · rw [setBit_other _ _ _ _ hkey, hrow r' hr' i' hi']
      constructor
      · rintro ⟨c', hc', hv⟩
        refine ⟨c', hc', ?_⟩
        have hne : ¬(r' = r ∧ c' = c) := by
          rintro ⟨e1, e2⟩
          rw [e1, e2, hb] at hv
          have : i' = i := by
            have := Option.some.inj hv
            omega
          exact hkey ⟨e1, this⟩
        rw [setCell_other _ _ _ _ hne]
        exact hv
      · rintro ⟨c', hc', hv⟩
        by_cases hne : r' = r ∧ c' = c
        · obtain ⟨e1, e2⟩ := hne
          rw [e1, e2, setCell_self] at hv
          exact Option.noConfusion hv
        · rw [setCell_other _ _ _ _ hne] at hv
          exact ⟨c', hc', hv⟩
  · intro c' hc' i' hi'
    show setBit s.colVals c i false c' i' = true ↔
      ∃ r', r' < 9 ∧ setCell s.board r c none r' c' = some (i' + 1)
    by_cases hkey : c' = c ∧ i' = i
    · obtain ⟨h1, h2⟩ := hkey
      subst h1; subst h2
      simp only [setBit_self]
      apply iff_of_false (by simp)
      rintro ⟨r', hr', hv⟩
      by_cases he : r' = r
      · rw [he] at hv
        rw [setCell_self] at hv
        exact Option.noConfusion hv
      · rw [setCell_other _ _ _ _ (fun h => he h.1)] at hv
        exact noConflictB_ne hnc hr hc' hr' hc'
          (fun h => he h.1.symm) (Or.inr (Or.inl rfl)) hb hv
    · rw [setBit_other _ _ _ _ hkey, hcol c' hc' i' hi']
      constructor
      · rintro ⟨r', hr', hv⟩
        refine ⟨r', hr', ?_⟩
        have hne : ¬(r' = r ∧ c' = c) := by
          rintro ⟨e1, e2⟩
          rw [e1, e2, hb] at hv
          have : i' = i := by
            have := Option.some.inj hv
            omega
          exact hkey ⟨e2, this⟩
        rw [setCell_other _ _ _ _ hne]
        exact hv
      · rintro ⟨r', hr', hv⟩
        by_cases hne : r' = r ∧ c' = c
        · obtain ⟨e1, e2⟩ := hne
          rw [e1, e2, setCell_self] at hv
          exact Option.noConfusion hv
        · rw [setCell_other _ _ _ _ hne] at hv
          exact ⟨r', hr', hv⟩
  · intro g' hg' i' hi'
    show setBit s.gridVals (grid_num r c) i false g' i' = true ↔
      ∃ r', r' < 9 ∧ ∃ c', c' < 9 ∧ grid_num r' c' = g' ∧
        setCell s.board r c none r' c' = some (i' + 1)
    by_cases hkey : g' = grid_num r c ∧ i' = i
    · obtain ⟨h1, h2⟩ := hkey
      subst h1; subst h2
      simp only [setBit_self]
      apply iff_of_false (by simp)
      rintro ⟨r', hr', c', hc', hgn, hv⟩
      by_cases he : r' = r ∧ c' = c
      · obtain ⟨e1, e2⟩ := he
        rw [e1, e2, setCell_self] at hv
        exact Option.noConfusion hv
      · rw [setCell_other _ _ _ _ he] at hv
        refine noConflictB_ne hnc hr hc hr' hc' ?_ (Or.inr (Or.inr hgn.symm)) hb hv
        rintro ⟨e1, e2⟩
        exact he ⟨e1.symm, e2.symm⟩
    · rw [setBit_other _ _ _ _ hkey, hgrid g' hg' i' hi']
      constructor
      · rintro ⟨r', hr', c', hc', hgn, hv⟩
        refine ⟨r', hr', c', hc', hgn, ?_⟩
        have hne : ¬(r' = r ∧ c' = c) := by
          rintro ⟨e1, e2⟩
          rw [e1, e2, hb] at hv
          have hii : i' = i := by
            have := Option.some.inj hv
            omega
          rw [e1, e2] at hgn
          exact hkey ⟨hgn.symm, hii⟩
        rw [setCell_other _ _ _ _ hne]
        exact hv
      · rintro ⟨r', hr', c', hc', hgn, hv⟩
        by_cases hne : r' = r ∧ c' = c
        · obtain ⟨e1, e2⟩ := hne
          rw [e1, e2, setCell_self] at hv
          exact Option.noConfusion hv
        · rw [setCell_other _ _ _ _ hne] at hv
          exact ⟨r', hr', c', hc', hgn, hv⟩

/-! ### End-to-end behaviour of `solve_puzzle` -/

/-- A board with a duplicate has no valid completion. -/
theorem hasDup_no_solution {b : Board} (h : HasDup b) :
    ¬ ∃ bs, SolvesB b bs := by
  rintro ⟨bs, _, hnc, _, hext⟩
  obtain ⟨r, hr, c, hc, r2, hr2, c2, hc2, hne, hunit, hsome, heq⟩ := h
  obtain ⟨d, hd⟩ := Option.isSome_iff_exists.mp hsome
  have hd2 : b r2 c2 = some d := by rw [← heq, hd]
  have hbs1 : bs r c = some d := boardExtends_some hext hr hc hd
  have hbs2 : bs r2 c2 = some d := boardExtends_some hext hr2 hc2 hd2
  exact noConflictB_ne hnc hr hc hr2 hc2 hne hunit hbs1 hbs2

/-- End-to-end success: on a well-formed solvable board, `solve_puzzle`
completes the board to a full, conflict-free, well-formed solution that
extends the clues and passes `check_puzzle`. -/
theorem solve_puzzle_solves {b : Board} (hwf : WellFormedB b)
    (hsol : ∃ bs, SolvesB b bs) :
    ∃ b', solve_puzzle b = some (true, b') ∧ FilledB b' ∧ NoConflictB b' ∧
      WellFormedB b' ∧ BoardExtends b b' ∧ check_puzzle b' = true := by
  cases hinit : initScan b with
  | none =>
    exact absurd hsol (hasDup_no_solution ((initScan_cases hwf).1 hinit))
  | some t =>
    obtain ⟨rv, cv, gv⟩ := t
    obtain ⟨hocc, hnc⟩ := (initScan_cases hwf).2 (rv, cv, gv) hinit
    have hst : StateInv ⟨b, rv, cv, gv⟩ := ⟨hocc, hnc, hwf⟩
    obtain ⟨bs, hbs⟩ := hsol
    have htrue : (solveFrom 81 0 0 ⟨b, rv, cv, gv⟩).1 = true :=
      solveFrom_complete 81 0 0 ⟨b, rv, cv, gv⟩ (by omega) (by omega) (by omega)
        hst ⟨bs, hbs.1, hbs.2.1, hbs.2.2.1, hbs.2.2.2⟩
    rcases hrun : solveFrom 81 0 0 ⟨b, rv, cv, gv⟩ with ⟨bo, s'⟩
    rw [hrun] at htrue
    have hbo : bo = true := htrue
    subst hbo
    obtain ⟨hst', hfill'⟩ :=
      solveFrom_sound 81 0 0 ⟨b, rv, cv, gv⟩ s' (by omega) (by omega) hst hrun
    have hfillB : FilledB s'.board := by
      intro r hr c hc
      exact hfill' r c hr hc (by omega)
    have hextB : BoardExtends b s'.board := by
      intro r hr c hc hsome
      obtain ⟨d, hd⟩ := Option.isSome_iff_exists.mp hsome
      rw [hd]
      exact solveFrom_keeps 81 0 0 _ true s' hrun r c d hd
    refine ⟨s'.board, ?_, hfillB, hst'.2.1, hst'.2.2, hextB, ?_⟩
    · rw [solve_puzzle_some hinit, hrun]
    · exact (check_puzzle_true_iff hst'.2.2).mpr ⟨hfillB, hst'.2.1⟩

/-- End-to-end failure: on a well-formed, duplicate-free board with no valid
completion, `solve_puzzle` reports failure and hands back the exact input
board. -/
theorem solve_puzzle_unsolvable {b : Board} (hwf : WellFormedB b)
    (hnodup : ¬ HasDup b) (hnosol : ¬ ∃ bs, SolvesB b bs) :
    solve_puzzle b = some (false, b) := by
  cases hinit : initScan b with
  | none =>
    exact absurd ((initScan_cases hwf).1 hinit) hnodup
  | some t =>
    obtain ⟨rv, cv, gv⟩ := t
    obtain ⟨hocc, hnc⟩ := (initScan_cases hwf).2 (rv, cv, gv) hinit
    have hst : StateInv ⟨b, rv, cv, gv⟩ := ⟨hocc, hnc, hwf⟩
    rcases hrun : solveFrom 81 0 0 ⟨b, rv, cv, gv⟩ with ⟨bo, s'⟩
    cases bo with
    | true =>
      exfalso
      obtain ⟨hst', hfill'⟩ :=
        solveFrom_sound 81 0 0 ⟨b, rv, cv, gv⟩ s' (by omega) (by omega) hst hrun
      refine hnosol ⟨s'.board, ?_, hst'.2.1, hst'.2.2, ?_⟩
      · intro r hr c hc
        exact hfill' r c hr hc (by omega)
      · intro r hr c hc hsome
        obtain ⟨d, hd⟩ := Option.isSome_iff_exists.mp hsome
        rw [hd]
        exact solveFrom_keeps 81 0 0 _ true s' hrun r c d hd
    | false =>
      have hs : s' = ⟨b, rv, cv, gv⟩ := solveFrom_restore 81 0 0 _ s' hrun
      rw [solve_puzzle_some hinit, hrun, hs]

/-! ### Rows, columns and subgrids as permutations of 1-9 -/

/-- The digits `1`-`9`. -/
def oneToNine : List Nat := [1, 2, 3, 4, 5, 6, 7, 8, 9]

/-- The values of row `r`, in column order (`0` for an empty cell). -/
def rowList (b : Board) (r : Nat) : List Nat :=
  (List.range 9).map (fun c => (b r c).getD 0)

/-- The values of column `c`, in row order. -/
def colList (b : Board) (c : Nat) : List Nat :=
  (List.range 9).map (fun r => (b r c).getD 0)

/-- The values of subgrid `g`, in the box scan order. -/
def gridList (b : Board) (g : Nat) : List Nat :=
  (boxCells (3 * (g / 3)) (3 * (g % 3))).map (fun p => (b p.1 p.2).getD 0)

theorem perm_oneToNine_of {l : List Nat} (hlen : l.length = 9) (hnd : l.Nodup)
    (hsub : ∀ v ∈ l, 1 ≤ v ∧ v ≤ 9) : l.Perm oneToNine := by
  have hsub' : l ⊆ oneToNine := by
    intro v hv
    obtain ⟨h1, h2⟩ := hsub v hv
    unfold oneToNine
    interval_cases v <;> simp
  have hsp : l.Subperm oneToNine := hnd.subperm hsub'
  refine hsp.perm_of_length_le ?_
  rw [hlen]
  rfl

/-- Generic unit lemma: the value list of 9 pairwise-distinct-valued,
filled, in-range cells is a permutation of 1-9. -/
theorem unitList_perm {b : Board} (hwf : WellFormedB b) (hfill : FilledB b)
    {P : List (Nat × Nat)} (hlen : P.length = 9) (hnd : P.Nodup)
    (hshape : ∀ p ∈ P, p.1 < 9 ∧ p.2 < 9)
    (hdist : ∀ p ∈ P, ∀ q ∈ P, p ≠ q → b p.1 p.2 ≠ b q.1 q.2) :
    (P.map (fun p => (b p.1 p.2).getD 0)).Perm oneToNine := by
  refine perm_oneToNine_of (by rw [List.length_map]; exact hlen) ?_ ?_
  · show List.Pairwise Ne (P.map (fun p => (b p.1 p.2).getD 0))
    have hpw : List.Pairwise (fun p q : Nat × Nat =>
        (b p.1 p.2).getD 0 ≠ (b q.1 q.2).getD 0) P := by
      refine hnd.pairwise_of_forall_ne (fun p hp q hq hpq => ?_)
      obtain ⟨h1, h2⟩ := hshape p hp
      obtain ⟨h3, h4⟩ := hshape q hq
      obtain ⟨v1, hv1⟩ := Option.isSome_iff_exists.mp (hfill p.1 h1 p.2 h2)
      obtain ⟨v2, hv2⟩ := Option.isSome_iff_exists.mp (hfill q.1 h3 q.2 h4)
      have hne := hdist p hp q hq hpq
      rw [hv1, hv2] at hne
      rw [hv1, hv2]
      simp only [Option.getD_some]
      intro hcon
      exact hne (by rw [hcon])
    exact List.Pairwise.map _ (fun x y h => h) hpw
  · intro v hv
    obtain ⟨p, hp, hval⟩ := List.mem_map.mp hv
    obtain ⟨h1, h2⟩ := hshape p hp
    obtain ⟨v1, hv1⟩ := Option.isSome_iff_exists.mp (hfill p.1 h1 p.2 h2)
    obtain ⟨hw1, hw2⟩ := wellFormedB_digit hwf h1 h2 hv1
    rw [hv1] at hval
    simp only [Option.getD_some] at hval
    rw [← hval]
    exact ⟨hw1, hw2⟩

theorem rowList_eq_map (b : Board) (r : Nat) :
    rowList b r = (rowCells r).map (fun p => (b p.1 p.2).getD 0) := by
  rw [rowCells, List.map_map]
  rfl

theorem colList_eq_map (b : Board) (c : Nat) :
    colList b c = (colCells c).map (fun p => (b p.1 p.2).getD 0) := by
  rw [colCells, List.map_map]
  rfl

theorem rowCells_length : ∀ r, r < 9 → (rowCells r).length = 9 := by
  decide

theorem colCells_length : ∀ c, c < 9 → (colCells c).length = 9 := by
  decide

theorem boxCells_corner_length : ∀ g, g < 9 →
    (boxCells (3 * (g / 3)) (3 * (g % 3))).length = 9 := by
  decide

theorem boxCells_corner_nodup : ∀ g, g < 9 →
    (boxCells (3 * (g / 3)) (3 * (g % 3))).Nodup := by
  decide

theorem boxCells_corner_shape : ∀ g, g < 9 →
    ∀ p ∈ boxCells (3 * (g / 3)) (3 * (g % 3)), p.1 < 9 ∧ p.2 < 9 := by
  decide

theorem boxCells_corner_grid : ∀ g, g < 9 →
    ∀ p ∈ boxCells (3 * (g / 3)) (3 * (g % 3)),
      ∀ q ∈ boxCells (3 * (g / 3)) (3 * (g % 3)),
        grid_num p.1 p.2 = grid_num q.1 q.2 := by
  decide

theorem oneToNine_nodup : oneToNine.Nodup := by
  decide

theorem oneToNine_bounds : ∀ v ∈ oneToNine, 1 ≤ v ∧ v ≤ 9 := by
  decide

/-- A filled, conflict-free board has every row, column and subgrid a
permutation of 1-9. -/
theorem perms_of_filled_noConflict {b : Board} (hwf : WellFormedB b)
    (hfill : FilledB b) (hnc : NoConflictB b) :
    (∀ r, r < 9 → (rowList b r).Perm oneToNine) ∧
    (∀ c, c < 9 → (colList b c).Perm oneToNine) ∧
    (∀ g, g < 9 → (gridList b g).Perm oneToNine) := by
  refine ⟨?_, ?_, ?_⟩
  · intro r hr
    rw [rowList_eq_map]
    refine unitList_perm hwf hfill (rowCells_length r hr) (rowCells_nodup r hr)
      (fun p hp => ?_) (fun p hp q hq hpq => ?_)
    · obtain ⟨h1, h2⟩ := rowCells_shape r hr p hp
      exact ⟨by omega, h2⟩
    · obtain ⟨h1, h2⟩ := rowCells_shape r hr p hp
      obtain ⟨h3, h4⟩ := rowCells_shape r hr q hq
      refine hnc p.1 (by omega) p.2 h2 q.1 (by omega) q.2 h4 ?_
        (Or.inl (by rw [h1, h3])) (hfill p.1 (by omega) p.2 h2)
      rintro ⟨e1, e2⟩
      exact hpq (Prod.ext e1 e2)
  · intro c hc
    rw [colList_eq_map]
    refine unitList_perm hwf hfill (colCells_length c hc) (colCells_nodup c hc)
      (fun p hp => ?_) (fun p hp q hq hpq => ?_)
    · obtain ⟨h1, h2⟩ := colCells_shape c hc p hp
      exact ⟨h2, by omega⟩
    · obtain ⟨h1, h2⟩ := colCells_shape c hc p hp
      obtain ⟨h3, h4⟩ := colCells_shape c hc q hq
      refine hnc p.1 h2 p.2 (by omega) q.1 h4 q.2 (by omega) ?_
        (Or.inr (Or.inl (by rw [h1, h3]))) (hfill p.1 h2 p.2 (by omega))
      rintro ⟨e1, e2⟩
      exact hpq (Prod.ext e1 e2)
  · intro g hg
    refine unitList_perm hwf hfill (boxCells_corner_length g hg)
      (boxCells_corner_nodup g hg) (boxCells_corner_shape g hg)
      (fun p hp q hq hpq => ?_)
    obtain ⟨h1, h2⟩ := boxCells_corner_shape g hg p hp
    obtain ⟨h3, h4⟩ := boxCells_corner_shape g hg q hq
    refine hnc p.1 h1 p.2 h2 q.1 h3 q.2 h4 ?_
      (Or.inr (Or.inr (boxCells_corner_grid g hg p hp q hq)))
      (hfill p.1 h1 p.2 h2)
    rintro ⟨e1, e2⟩
    exact hpq (Prod.ext e1 e2)

/-- Conversely, the permutation property forces a filled, conflict-free
board. -/
theorem filled_noConflict_of_perms {b : Board}
    (hrow : ∀ r, r < 9 → (rowList b r).Perm oneToNine)
    (hcol : ∀ c, c < 9 → (colList b c).Perm oneToNine)
    (hgrid : ∀ g, g < 9 → (gridList b g).Perm oneToNine) :
    FilledB b ∧ NoConflictB b := by
  have hfill : FilledB b := by
    intro r hr c hc
    have hv : (b r c).getD 0 ∈ rowList b r :=
      List.mem_map_of_mem _ (List.mem_range.mpr hc)
    have := (oneToNine_bounds _ ((hrow r hr).subset hv)).1
    cases hcell : b r c with
    | none =>
      rw [hcell] at this
      simp at this
    | some v => rfl
  refine ⟨hfill, ?_⟩
  intro r1 hr1 c1 hc1 r2 hr2 c2 hc2 hne hunit hsome heq
  obtain ⟨v, hv⟩ := Option.isSome_iff_exists.mp hsome
  have hv2 : b r2 c2 = some v := by rw [← heq, hv]
  have hsym : Symmetric (fun a b2 : Nat =>
      (fun p : Nat × Nat => (b p.1 p.2).getD 0) a ≠
      (fun p : Nat × Nat => (b p.1 p.2).getD 0) b2) := fun x y h => h.symm
  rcases hunit with h | h | h
  · subst h
    have hnd : (rowList b r1).Nodup :=
      ((hrow r1 hr1).nodup_iff).mpr oneToNine_nodup
    have hpw := List.pairwise_map.mp hnd
    have hcne : c1 ≠ c2 := fun he => hne ⟨rfl, he⟩
    have := hpw.forall (fun x y h => Ne.symm h)
      (List.mem_range.mpr hc1) (List.mem_range.mpr hc2) hcne
    apply this
    show (b r1 c1).getD 0 = (b r1 c2).getD 0
    rw [hv, hv2]
  · subst h
    have hnd : (colList b c1).Nodup :=
      ((hcol c1 hc1).nodup_iff).mpr oneToNine_nodup
    have hpw := List.pairwise_map.mp hnd
    have hrne : r1 ≠ r2 := fun he => hne ⟨he, rfl⟩
    have := hpw.forall (fun x y h => Ne.symm h)
      (List.mem_range.mpr hr1) (List.mem_range.mpr hr2) hrne
    apply this
    show (b r1 c1).getD 0 = (b r2 c1).getD 0
    rw [hv, hv2]
  · have hg9 : grid_num r1 c1 < 9 := grid_num_lt r1 hr1 c1 hc1
    have hnd : (gridList b (grid_num r1 c1)).Nodup :=
      ((hgrid _ hg9).nodup_iff).mpr oneToNine_nodup
    have hpw := List.pairwise_map.mp hnd
    have hm1 := boxCells_mem r1 hr1 c1 hc1
    have hm2 := boxCells_mem r2 hr2 c2 hc2
    rw [← h] at hm2
    have hpne : ((r1, c1) : Nat × Nat) ≠ (r2, c2) := by
      intro hp
      exact hne ⟨congrArg Prod.fst hp, congrArg Prod.snd hp⟩
    have := hpw.forall (fun x y hxy => Ne.symm hxy) hm1 hm2 hpne
    apply this
    show (b r1 c1).getD 0 = (b r2 c2).getD 0
    rw [hv, hv2]

/-! ### The returned solution is lexicographically least -/

/-- The value at row-major position `p` (`0` for an empty cell). -/
def valAt (b : Board) (p : Nat) : Nat := (b (p / 9) (p % 9)).getD 0

/-- `b1` is lexicographically smaller than `b2` on the row-major positions
from `pos` on (at the first position where they differ, `b1` is smaller). -/
def LexLtFrom (pos : Nat) (b1 b2 : Board) : Prop :=
  ∃ p, pos ≤ p ∧ p < 81 ∧
    (∀ q, pos ≤ q → q < p → valAt b1 q = valAt b2 q) ∧
    valAt b1 p < valAt b2 p

theorem lexLtFrom_step {pos : Nat} {b1 b2 : Board}
    (hval : valAt b1 pos = valAt b2 pos) :
    LexLtFrom pos b1 b2 → LexLtFrom (pos + 1) b1 b2 := by
  rintro ⟨p, h1, h2, hagree, hlt⟩
  rcases Nat.eq_or_lt_of_le h1 with he | hgt
  · exfalso
    rw [← he] at hlt
    omega
  · exact ⟨p, by omega, h2, fun q hq1 hq2 => hagree q (by omega) hq2, hlt⟩

theorem valAt_eq (b : Board) {r c : Nat} (hc : c < 9) :
    valAt b (9 * r + c) = (b r c).getD 0 := by
  unfold valAt
  have h1 : (9 * r + c) / 9 = r := by omega
  have h2 : (9 * r + c) % 9 = c := by omega
  rw [h1, h2]

/-- In a split of the (sorted) candidate list, every candidate smaller than
the split point lies in the prefix. -/
theorem mem_pre_of_lt {pre post : List Nat} {i j : Nat}
    (h : digitList = pre ++ i :: post) (hj : j < i) (hjm : j ∈ digitList) :
    j ∈ pre := by
  have hpw : List.Pairwise (· < ·) (List.range 9) := List.pairwise_lt_range 9
  have h' : List.range 9 = pre ++ i :: post := h
  rw [h'] at hpw
  rw [show digitList = List.range 9 from rfl, h'] at hjm
  rw [List.pairwise_append] at hpw
  rcases List.mem_append.mp hjm with hm | hm
  · exact hm
  · exfalso
    rcases List.mem_cons.mp hm with he | hm2
    · omega
    · have := (List.pairwise_cons.mp hpw.2.1).1 j hm2
      omega

/-- Minimality: whatever solved board the search returns, no valid
completion of the entry board is lexicographically smaller than it from the
current position on — the row-major cell order and ascending digit order
make the returned solution the least one. -/
theorem solveFrom_min :
    ∀ (fuel r c : Nat) (s s' : SolverState), r < 9 → c < 9 →
      81 - (9 * r + c) ≤ fuel → StateInv s →
      solveFrom fuel r c s = (true, s') →
      ∀ bs, FilledB bs → NoConflictB bs → WellFormedB bs →
        BoardExtends s.board bs →
        ¬ LexLtFrom (9 * r + c) bs s'.board := by
  intro fuel
  induction fuel with
  | zero =>
    intro r c s s' hr hc hf
    omega
  | succ n ih =>
    intro r c s s' hr hc hf hst h bs hfill hnc hwfs hext
    cases hb : s.board r c with
    | some d =>
      have hkeep := solveFrom_keeps (n + 1) r c s true s' h
      have hs'cell : s'.board r c = some d := hkeep r c d hb
      have hbscell : bs r c = some d := boardExtends_some hext hr hc hb
      have hval : valAt bs (9 * r + c) = valAt s'.board (9 * r + c) := by
        rw [valAt_eq bs hc, valAt_eq s'.board hc, hbscell, hs'cell]
      simp only [solveFrom, hb] at h
      by_cases hc1 : c + 1 < 9
      · rw [if_pos hc1] at h
        have hmin := ih r (c + 1) s s' hr hc1 (by omega) hst h bs
          hfill hnc hwfs hext
        intro hlex
        apply hmin
        have h9 : 9 * r + (c + 1) = 9 * r + c + 1 := by omega
        rw [h9]
        exact lexLtFrom_step hval hlex
      · rw [if_neg hc1] at h
        by_cases hr1 : r + 1 < 9
        · rw [if_pos hr1] at h
          have hmin := ih (r + 1) 0 s s' hr1 (by omega) (by omega) hst h bs
            hfill hnc hwfs hext
          intro hlex
          apply hmin
          have h9 : 9 * (r + 1) + 0 = 9 * r + c + 1 := by omega
          rw [h9]
          exact lexLtFrom_step hval hlex
        · rintro ⟨p, hp1, hp2, hagree, hplt⟩
          have hp : p = 9 * r + c := by omega
          rw [hp, hval] at hplt
          omega
    | none =>
      obtain ⟨hocc, hncs, hwf⟩ := hst
      simp only [solveFrom, hb] at h
      obtain ⟨pre, i, post, heqL, hguardF, hnext, hpre⟩ :=
        tryDigits_true _ (fun s0 t0 => solveStep_restore n r c s0 t0)
          r c (grid_num r c) digitList s s' hb h
      have hi9 : i < 9 := by
        have hmem : i ∈ digitList := by
          rw [heqL]
          exact List.mem_append.mpr (Or.inr (List.mem_cons_self i post))
        exact List.mem_range.mp hmem
      have hst1 : StateInv (place s r c (grid_num r c) i) :=
        stateInv_place hr hc hi9 hb ⟨hocc, hncs, hwf⟩ hguardF
      have hcell1 : (place s r c (grid_num r c) i).board r c = some (i + 1) := by
        show setCell s.board r c (nonZeroU8New (i + 1)) r c = some (i + 1)
        simp
      have hs'cell : s'.board r c = some (i + 1) := by
        by_cases hc1 : c + 1 < 9
        · simp only [if_pos hc1] at hnext
          exact solveFrom_keeps n r (c + 1) _ true s' hnext r c (i + 1) hcell1
        · simp only [if_neg hc1] at hnext
          by_cases hr1 : r + 1 < 9
          · simp only [if_pos hr1] at hnext
            exact solveFrom_keeps n (r + 1) 0 _ true s' hnext r c (i + 1) hcell1
          · simp only [if_neg hr1] at hnext
            have hs : s' = place s r c (grid_num r c) i :=
              (congrArg Prod.snd hnext).symm
            rw [hs]
            exact hcell1
      obtain ⟨dbs, hdbs⟩ := Option.isSome_iff_exists.mp (hfill r hr c hc)
      obtain ⟨hdbs1, hdbs9⟩ := wellFormedB_digit hwfs hr hc hdbs
      have hdbsi : dbs - 1 + 1 = dbs := by omega
      have hguardbs : (s.rowVals r (dbs - 1) || s.colVals c (dbs - 1) ||
          s.gridVals (grid_num r c) (dbs - 1)) = false :=
        guard_clear_of_solution hr hc hocc hb hnc hext hdbs hdbs1 hdbs9
      rcases Nat.lt_trichotomy (dbs - 1) i with hlt' | heq | hgt
      · -- the solution's digit would have been tried earlier and succeeded
        exfalso
        have hmemd : dbs - 1 ∈ digitList := List.mem_range.mpr (by omega)
        have hmempre : dbs - 1 ∈ pre := mem_pre_of_lt heqL hlt' hmemd
        rcases hpre (dbs - 1) hmempre with hg | hfail
        · rw [hguardbs] at hg
          exact Bool.false_ne_true hg
        · have hst2 : StateInv (place s r c (grid_num r c) (dbs - 1)) :=
            stateInv_place hr hc (by omega) hb ⟨hocc, hncs, hwf⟩ hguardbs
          have hext2 : BoardExtends
              (place s r c (grid_num r c) (dbs - 1)).board bs :=
            boardExtends_place hext (by rw [hdbsi]; exact hdbs)
          by_cases hc1 : c + 1 < 9
          · simp only [if_pos hc1] at hfail
            have hcomp := solveFrom_complete n r (c + 1) _ hr hc1 (by omega)
              hst2 ⟨bs, hfill, hnc, hwfs, hext2⟩
            rw [hfail] at hcomp
            exact Bool.noConfusion hcomp
          · simp only [if_neg hc1] at hfail
            by_cases hr1 : r + 1 < 9
            · simp only [if_pos hr1] at hfail
              have hcomp := solveFrom_complete n (r + 1) 0 _ hr1 (by omega)
                (by omega) hst2 ⟨bs, hfill, hnc, hwfs, hext2⟩
              rw [hfail] at hcomp
              exact Bool.noConfusion hcomp
            · simp only [if_neg hr1] at hfail
              simp at hfail
      · -- equal digit: recurse to the next position
        have hbsi : bs r c = some (i + 1) := by
          rw [hdbs]
          congr 1
          omega
        have hext1 : BoardExtends (place s r c (grid_num r c) i).board bs :=
          boardExtends_place hext hbsi
        have hval : valAt bs (9 * r + c) = valAt s'.board (9 * r + c) := by
          rw [valAt_eq bs hc, valAt_eq s'.board hc, hbsi, hs'cell]
        by_cases hc1 : c + 1 < 9
        · simp only [if_pos hc1] at hnext
          have hmin := ih r (c + 1) _ s' hr hc1 (by omega) hst1 hnext bs
            hfill hnc hwfs hext1
          intro hlex
          apply hmin
          have h9 : 9 * r + (c + 1) = 9 * r + c + 1 := by omega
          rw [h9]
          exact lexLtFrom_step hval hlex
        · simp only [if_neg hc1] at hnext
          by_cases hr1 : r + 1 < 9
          · simp only [if_pos hr1] at hnext
            have hmin := ih (r + 1) 0 _ s' hr1 (by omega) (by omega) hst1
              hnext bs hfill hnc hwfs hext1
            intro hlex
            apply hmin
            have h9 : 9 * (r + 1) + 0 = 9 * r + c + 1 := by omega
            rw [h9]
            exact lexLtFrom_step hval hlex
          · rintro ⟨p, hp1, hp2, hagree, hplt⟩
            have hp : p = 9 * r + c := by omega
            rw [hp, hval] at hplt
            omega
      · -- the solution's digit is larger: it cannot be lex-smaller
        rintro ⟨p, hp1, hp2, hagree, hplt⟩
        have hvbs : valAt bs (9 * r + c) = dbs := by
          rw [valAt_eq bs hc, hdbs]
          rfl
        have hvs' : valAt s'.board (9 * r + c) = i + 1 := by
          rw [valAt_eq s'.board hc, hs'cell]
          rfl
        rcases Nat.eq_or_lt_of_le hp1 with he | hgt2
        · rw [← he] at hplt
          rw [hvbs, hvs'] at hplt
          omega
        · have := hagree (9 * r + c) (le_refl _) hgt2
          rw [hvbs, hvs'] at this
          omega

/-- Build a concrete board from a row-major list of rows, `0` denoting an
empty cell (as in the external serialization) and `1`-`9` a filled digit. -/
def boardOfRows (rows : List (List Nat)) : Board :=
  fun r c =>
    match (rows.getD r []).getD c 0 with
    | 0 => none
    | d + 1 => some (d + 1)

/-! ### Concrete test boards -/

/-- A complete valid Sudoku solution. -/
def testFull : Board := boardOfRows
  [[5, 3, 4, 6, 7, 8, 9, 1, 2],
   [6, 7, 2, 1, 9, 5, 3, 4, 8],
   [1, 9, 8, 3, 4, 2, 5, 6, 7],
   [8, 5, 9, 7, 6, 1, 4, 2, 3],
   [4, 2, 6, 8, 5, 3, 7, 9, 1],
   [7, 1, 3, 9, 2, 4, 8, 5, 6],
   [9, 6, 1, 5, 3, 7, 2, 8, 4],
   [2, 8, 7, 4, 1, 9, 6, 3, 5],
   [3, 4, 5, 2, 8, 6, 1, 7, 9]]

/-- `testFull` with some cells blanked; `testFull` completes it. -/
def testGap : Board := boardOfRows
  [[5, 3, 0, 6, 7, 8, 9, 1, 2],
   [6, 7, 2, 1, 9, 5, 3, 4, 8],
   [1, 9, 8, 3, 4, 2, 5, 6, 7],
   [8, 5, 9, 7, 6, 1, 4, 2, 3],
   [4, 2, 6, 8, 5, 3, 7, 9, 1],
   [7, 1, 3, 9, 2, 4, 8, 5, 6],
   [9, 6, 1, 5, 3, 7, 2, 8, 4],
   [2, 8, 7, 0, 1, 9, 6, 3, 5],
   [3, 4, 5, 2, 8, 6, 1, 7, 0]]

/-- Two fives in row 0: duplicate clues (the spec's invalid-input example). -/
def testDup : Board := boardOfRows
  [[5, 5, 0, 0, 0, 0, 0, 0, 0],
   [0, 0, 0, 0, 0, 0, 0, 0, 0],
   [0, 0, 0, 0, 0, 0, 0, 0, 0],
   [0, 0, 0, 0, 0, 0, 0, 0, 0],
   [0, 0, 0, 0, 0, 0, 0, 0, 0],
   [0, 0, 0, 0, 0, 0, 0, 0, 0],
   [0, 0, 0, 0, 0, 0, 0, 0, 0],
   [0, 0, 0, 0, 0, 0, 0, 0, 0],
   [0, 0, 0, 0, 0, 0, 0, 0, 0]]

/-- Duplicate-free but unsolvable: cell `(0, 0)` can hold no digit — its
row already has `2`-`9` and its column already has `1`. -/
def testUnsolv : Board := boardOfRows
  [[0, 2, 3, 4, 5, 6, 7, 8, 9],
   [0, 0, 0, 0, 0, 0, 0, 0, 0],
   [0, 0, 0, 0, 0, 0, 0, 0, 0],
   [0, 0, 0, 0, 0, 0, 0, 0, 0],
   [0, 0, 0, 0, 0, 0, 0, 0, 0],
   [0, 0, 0, 0, 0, 0, 0, 0, 0],
   [0, 0, 0, 0, 0, 0, 0, 0, 0],
   [0, 0, 0, 0, 0, 0, 0, 0, 0],
   [1, 0, 0, 0, 0, 0, 0, 0, 0]]

/-! ### The value-index lists of the two scanning functions (claim C10) -/

/-- A `NonZeroU8`-typed cell: empty or a value in `[1, 255]`. The Rust cell
type enforces only this, not membership in `[1, 9]`. -/
def cellTypeOK (o : Option Nat) : Bool :=
  match o with
  | none => true
  | some d => decide (1 ≤ d ∧ d ≤ 255)

/-- The indices `val - 1` computed by the initialization scan of
`solve_puzzle`, used against length-9 arrays. -/
def initIndexList (b : Board) : List Nat :=
  cellList.filterMap (fun p => (b p.1 p.2).map (fun d => d - 1))

/-- The cells scanned by the three phases of `check_puzzle`, in order. -/
def checkCellList : List (Nat × Nat) :=
  (List.range 9).flatMap rowCells ++ (List.range 9).flatMap colCells ++
    ([0, 3, 6] : List Nat).flatMap (fun i =>
      ([0, 3, 6] : List Nat).flatMap (fun j => boxCells i j))

/-- The indices `val - 1` computed by `check_puzzle`, used against length-9
arrays. -/
def checkIndexList (b : Board) : List Nat :=
  checkCellList.filterMap (fun p => (b p.1 p.2).map (fun d => d - 1))

/-- A board whose only cell value is `10`: allowed by `Option<NonZeroU8>`,
but its computed index `9` is out of bounds for the length-9 arrays. -/
def testOverflow : Board := boardOfRows [[10]]

set_option maxRecDepth 4000 in
theorem checkCellList_bounds : ∀ p ∈ checkCellList, p.1 < 9 ∧ p.2 < 9 := by
  decide

/-! ### The claims -/

/-- C1: for every 9x9 board whose cells are empty or hold digits 1-9 and
which has at least one valid completion, `solve_puzzle` terminates
successfully (the search returns `true`) and afterwards the board is
completely filled and `check_puzzle` returns `true` on it. -/
theorem claim_C1_solvable_solves : ∀ b : Board, WellFormedB b →
    (∃ bs, SolvesB b bs) →
    ∃ b', solve_puzzle b = some (true, b') ∧ FilledB b' ∧
      check_puzzle b' = true := by
  intro b hwf hsol
  obtain ⟨b', h1, h2, _, _, _, h6⟩ := solve_puzzle_solves hwf hsol
  exact ⟨b', h1, h2, h6⟩

theorem claim_C1_witness :
    ∃ b', solve_puzzle testGap = some (true, b') ∧ FilledB b' ∧
      check_puzzle b' = true :=
  claim_C1_solvable_solves testGap (by decide) ⟨testFull, by decide⟩

/-- C2 counterexample: the claim as stated fails on a board whose clues are
duplicated. `testDup` is well-formed (cells empty or 1-9) and has no valid
completion, yet `solve_puzzle` panics (invalid-input condition) instead of
reporting failure with the board unchanged. -/
theorem claim_C2_counterexample :
    WellFormedB testDup ∧ (¬ ∃ bs, SolvesB testDup bs) ∧
      solve_puzzle testDup ≠ some (false, testDup) := by
  refine ⟨by decide, hasDup_no_solution (by decide), ?_⟩
  intro hcon
  rw [show solve_puzzle testDup = none from rfl] at hcon
  exact Option.noConfusion hcon

/-- C2 (amended): for every well-formed, duplicate-free board with no valid
completion, the solve call reports failure and leaves the board's cell
contents identical to the pre-call board. -/
theorem claim_C2_failure_restores : ∀ b : Board, WellFormedB b →
    ¬ HasDup b → (¬ ∃ bs, SolvesB b bs) →
    solve_puzzle b = some (false, b) :=
  fun _ h1 h2 h3 => solve_puzzle_unsolvable h1 h2 h3

theorem claim_C2_witness : solve_puzzle testUnsolv = some (false, testUnsolv) := by
  refine claim_C2_failure_restores testUnsolv (by decide) (by decide) ?_
  rintro ⟨bs, hfill, hnc, hwfs, hext⟩
  obtain ⟨d, hd⟩ := Option.isSome_iff_exists.mp
    (hfill 0 (by omega) 0 (by omega))
  obtain ⟨hd1, hd9⟩ := wellFormedB_digit hwfs (by omega) (by omega) hd
  by_cases hone : d = 1
  · have h8 : bs 8 0 = some 1 :=
      boardExtends_some hext (by omega) (by omega) (by decide)
    subst hone
    exact noConflictB_ne hnc (show (0 : Nat) < 9 by omega) (by omega)
      (by omega) (by omega) (by simp) (Or.inr (Or.inl rfl)) hd h8
  · have hrow : testUnsolv 0 (d - 1) = some d := by
      have hfact : ∀ d2, d2 < 10 → 2 ≤ d2 → testUnsolv 0 (d2 - 1) = some d2 := by
        decide
      exact hfact d (by omega) (by omega)
    have hbs2 : bs 0 (d - 1) = some d :=
      boardExtends_some hext (by omega) (by omega) hrow
    refine noConflictB_ne hnc (show (0 : Nat) < 9 by omega)
      (show (0 : Nat) < 9 by omega) (by omega) (by omega) ?_ (Or.inl rfl)
      hd hbs2
    rintro ⟨_, he⟩
    omega

/-- C3: for a well-formed input board, the initialization scan panics (the
fatal, unrecoverable `panic!` before any search step) exactly when two equal
digits already share a row, column, or subgrid, and `solve_puzzle` panics
exactly when the scan does — for duplicate-free input the error branch is
never taken. -/
theorem claim_C3_duplicate_panics : ∀ b : Board, WellFormedB b →
    ((initScan b = none ↔ HasDup b) ∧
     (solve_puzzle b = none ↔ initScan b = none)) := by
  intro b hwf
  refine ⟨initScan_none_iff hwf, ?_, solve_puzzle_none⟩
  intro h
  cases hinit : initScan b with
  | none => rfl
  | some t =>
    obtain ⟨rv, cv, gv⟩ := t
    rw [solve_puzzle_some hinit] at h
    exact Option.noConfusion h

theorem claim_C3_witness :
    (initScan testDup = none ↔ HasDup testDup) ∧
    (solve_puzzle testDup = none ↔ initScan testDup = none) :=
  claim_C3_duplicate_panics testDup (by decide)

/-- C4: on every board on which `solve_puzzle` succeeds, every cell that was
filled in the input board holds the same digit in the output board — the
solver never overwrites a given clue. -/
theorem claim_C4_clues_preserved : ∀ (b b' : Board),
    solve_puzzle b = some (true, b') →
    ∀ r, r < 9 → ∀ c, c < 9 → ∀ d, b r c = some d → b' r c = some d := by
  intro b b' h r hr c hc d hd
  cases hinit : initScan b with
  | none =>
    rw [solve_puzzle_none hinit] at h
    exact Option.noConfusion h
  | some t =>
    obtain ⟨rv, cv, gv⟩ := t
    rcases hrun : solveFrom 81 0 0 ⟨b, rv, cv, gv⟩ with ⟨bo, s'⟩
    rw [solve_puzzle_some hinit, hrun] at h
    simp only [Option.some.injEq, Prod.mk.injEq] at h
    rw [← h.2]
    exact solveFrom_keeps 81 0 0 _ bo s' hrun r c d hd

/-- The board `solve_puzzle` computes for `testGap`. -/
def c4result : Board := ((solve_puzzle testGap).getD (false, testGap)).2

theorem claim_C4_witness : c4result 0 0 = some 5 :=
  claim_C4_clues_preserved testGap c4result rfl 0 (by decide) 0 (by decide)
    5 (by decide)

/-- C5: the three bitset arrays are exactly the occupancy derived from the
current board at every reachable state of the search: after a successful
initialization scan, after each placement, after each retraction, and in
the state the search hands back. -/
theorem claim_C5_bitsets_exact_occupancy :
    (∀ (b : Board) (t : Bits × Bits × Bits), WellFormedB b →
      initScan b = some t → BitsOcc ⟨b, t.1, t.2.1, t.2.2⟩) ∧
    (∀ (s : SolverState) (r c i : Nat), r < 9 → c < 9 → i < 9 →
      s.board r c = none → BitsOcc s →
      BitsOcc (place s r c (grid_num r c) i)) ∧
    (∀ (s : SolverState) (r c i : Nat), r < 9 → c < 9 → i < 9 →
      s.board r c = some (i + 1) → BitsOcc s → NoConflictB s.board →
      BitsOcc (unplace s r c (grid_num r c) i)) ∧
    (∀ (fuel r c : Nat) (s : SolverState) (bo : Bool) (s' : SolverState),
      r < 9 → c < 9 → StateInv s → solveFrom fuel r c s = (bo, s') →
      BitsOcc s') := by
  refine ⟨?_, ?_, ?_, ?_⟩
  · intro b t hwf hinit
    exact ((initScan_cases hwf).2 t hinit).1
  · intro s r c i hr hc hi hb hocc
    exact bitsOcc_place hr hc hi hb hocc
  · intro s r c i hr hc hi hb hocc hnc
    exact bitsOcc_unplace hr hc hi hb hocc hnc
  · intro fuel r c s bo s' hr hc hst hrun
    cases bo with
    | false =>
      rw [solveFrom_restore fuel r c s s' hrun]
      exact hst.1
    | true =>
      exact (solveFrom_sound fuel r c s s' hr hc hst hrun).1.1

/-- The bitsets the initialization scan computes for `testFull`. -/
def c5bits : Bits × Bits × Bits :=
  (initScan testFull).getD (falseBits, falseBits, falseBits)

theorem claim_C5_witness :
    BitsOcc ⟨testFull, c5bits.1, c5bits.2.1, c5bits.2.2⟩ :=
  claim_C5_bitsets_exact_occupancy.1 testFull c5bits (by decide) rfl

/-- C6: for every well-formed 9x9 board, `check_puzzle` returns `true` if
and only if the board is completely filled and every row, column, and
subgrid is a permutation of 1-9 (so it returns `false` whenever a cell is
empty or a digit repeats in a row, column, or subgrid). -/
theorem claim_C6_check_iff_valid : ∀ b : Board, WellFormedB b →
    (check_puzzle b = true ↔ FilledB b ∧
      (∀ r, r < 9 → (rowList b r).Perm oneToNine) ∧
      (∀ c, c < 9 → (colList b c).Perm oneToNine) ∧
      (∀ g, g < 9 → (gridList b g).Perm oneToNine)) := by
  intro b hwf
  rw [check_puzzle_true_iff hwf]
  constructor
  · rintro ⟨hfill, hnc⟩
    obtain ⟨h1, h2, h3⟩ := perms_of_filled_noConflict hwf hfill hnc
    exact ⟨hfill, h1, h2, h3⟩
  · rintro ⟨hfill, hrow, hcol, hgrid⟩
    exact ⟨hfill, (filled_noConflict_of_perms hrow hcol hgrid).2⟩

theorem claim_C6_witness :
    check_puzzle testFull = true ↔ FilledB testFull ∧
      (∀ r, r < 9 → (rowList testFull r).Perm oneToNine) ∧
      (∀ c, c < 9 → (colList testFull c).Perm oneToNine) ∧
      (∀ g, g < 9 → (gridList testFull g).Perm oneToNine) :=
  claim_C6_check_iff_valid testFull (by decide)

/-- C7: for every `r, c < 9`, `grid_num r c` equals the integer-division
formula `r / 3 * 3 + c / 3` and lies in `[0, 8]` — the lookup table is
behaviorally identical to the formula — and the block examples hold. -/
theorem claim_C7_grid_num_formula :
    (∀ r, r < 9 → ∀ c, c < 9 →
      grid_num r c = r / 3 * 3 + c / 3 ∧ grid_num r c < 9) ∧
    grid_num 0 0 = 0 ∧ grid_num 2 2 = 0 ∧ grid_num 3 0 = 3 ∧
    grid_num 8 8 = 8 := by
  decide

theorem claim_C7_witness :
    grid_num 3 0 = 3 / 3 * 3 + 0 / 3 ∧ grid_num 3 0 < 9 :=
  claim_C7_grid_num_formula.1 3 (by decide) 0 (by decide)

/-- C8: when solving succeeds on a well-formed board, the returned board is
a valid completion, and no valid completion of the input is smaller in the
order determined by the fixed row-major cell order and ascending digit
order — for under-constrained puzzles the returned solution is exactly the
lexicographically least one, pinned by this ordering. -/
theorem claim_C8_lexicographically_least : ∀ b : Board, WellFormedB b →
    ∀ b' : Board, solve_puzzle b = some (true, b') →
      SolvesB b b' ∧ ∀ bs, SolvesB b bs → ¬ LexLtFrom 0 bs b' := by
  intro b hwf b' h
  cases hinit : initScan b with
  | none =>
    rw [solve_puzzle_none hinit] at h
    exact Option.noConfusion h
  | some t =>
    obtain ⟨rv, cv, gv⟩ := t
    obtain ⟨hocc, hnc⟩ := (initScan_cases hwf).2 (rv, cv, gv) hinit
    have hst : StateInv ⟨b, rv, cv, gv⟩ := ⟨hocc, hnc, hwf⟩
    rcases hrun : solveFrom 81 0 0 ⟨b, rv, cv, gv⟩ with ⟨bo, s'⟩
    rw [solve_puzzle_some hinit, hrun] at h
    simp only [Option.some.injEq, Prod.mk.injEq] at h
    obtain ⟨hbo, hb'⟩ := h
    subst hbo
    subst hb'
    have hsound := solveFrom_sound 81 0 0 _ s' (by omega) (by omega) hst hrun
    constructor
    · refine ⟨?_, hsound.1.2.1, hsound.1.2.2, ?_⟩
      · intro r hr c hc
        exact hsound.2 r c hr hc (by omega)
      · intro r hr c hc hsome
        obtain ⟨d, hd⟩ := Option.isSome_iff_exists.mp hsome
        rw [hd]
        exact solveFrom_keeps 81 0 0 _ true s' hrun r c d hd
    · intro bs hbs
      exact solveFrom_min 81 0 0 _ s' (by omega) (by omega) (by omega) hst
        hrun bs hbs.1 hbs.2.1 hbs.2.2.1 hbs.2.2.2

/-- The board `solve_puzzle` computes for `testGap` (for the C8 witness). -/
def c8result : Board := ((solve_puzzle testGap).getD (false, testGap)).2

theorem claim_C8_witness :
    SolvesB testGap c8result ∧
      ∀ bs, SolvesB testGap bs → ¬ LexLtFrom 0 bs c8result :=
  claim_C8_lexicographically_least testGap (by decide) c8result rfl

/-- C9: the search terminates because every recursive call strictly advances
the row-major position: any fuel of at least `81 - (9r + c)` — the number of
remaining positions — yields the same result, so the recursion depth is
bounded and the call always returns. -/
theorem claim_C9_search_terminates :
    ∀ (f1 f2 r c : Nat) (s : SolverState), r < 9 → c < 9 →
      81 - (9 * r + c) ≤ f1 → 81 - (9 * r + c) ≤ f2 →
      solveFrom f1 r c s = solveFrom f2 r c s :=
  fun f1 f2 r c s hr hc h1 h2 => solveFrom_fuel_congr f1 f2 r c s hr hc h1 h2

theorem claim_C9_witness :
    solveFrom 100 0 0 ⟨testFull, falseBits, falseBits, falseBits⟩ =
      solveFrom 81 0 0 ⟨testFull, falseBits, falseBits, falseBits⟩ :=
  claim_C9_search_terminates 100 81 0 0 _ (by decide) (by decide)
    (by decide) (by decide)

/-- C10: under the precondition that every filled cell holds a value in
`[1, 9]`, every array index `val - 1` computed by `solve_puzzle`'s
initialization scan and by `check_puzzle` is in bounds for the length-9
arrays; and this precondition is not enforced by the cell type
`Option<NonZeroU8>`, which admits values up to 255 whose index is out of
bounds. -/
theorem claim_C10_indices_in_bounds :
    (∀ b : Board, WellFormedB b →
      (∀ i ∈ initIndexList b, i < 9) ∧ (∀ i ∈ checkIndexList b, i < 9)) ∧
    (∃ b : Board, (∀ r, r < 9 → ∀ c, c < 9 → cellTypeOK (b r c) = true) ∧
      ∃ i ∈ initIndexList b, ¬ i < 9) := by
  constructor
  · intro b hwf
    constructor
    · intro i hi
      obtain ⟨p, hp, hv⟩ := List.mem_filterMap.mp hi
      obtain ⟨h1, h2⟩ := cellList_bounds p hp
      obtain ⟨d, hd, he⟩ := Option.map_eq_some'.mp hv
      have := (wellFormedB_digit hwf h1 h2 hd).2
      omega
    · intro i hi
      obtain ⟨p, hp, hv⟩ := List.mem_filterMap.mp hi
      obtain ⟨h1, h2⟩ := checkCellList_bounds p hp
      obtain ⟨d, hd, he⟩ := Option.map_eq_some'.mp hv
      have := (wellFormedB_digit hwf h1 h2 hd).2
      omega
  · exact ⟨testOverflow, by decide, 9, by decide, by omega⟩

theorem claim_C10_witness : (0 : Nat) < 9 ∧ (8 : Nat) < 9 :=
  ⟨(claim_C10_indices_in_bounds.1 testFull (by decide)).1 0 (by decide),
   (claim_C10_indices_in_bounds.1 testFull (by decide)).2 8 (by decide)⟩

end Sudoku
